import Mathlib

/-
Verification of the core systems of "Le Dernier Phare":
the hexagonal board with fog of war (Tile.js, Board.js), the path finder
(PathFinder.js), the central state store (StateManager.js), the resource
economy (ResourceManager.js) and the day/night cycle (TimeManager.js).

JavaScript Maps and Sets keyed by the string "q,r" are modelled with the
integer pair (q, r) itself: for integer coordinates the key string is in
bijection with the pair.
-/

namespace LePhare

/-- Axial coordinate (q, r) of a hexagonal cell. -/
abbrev Coord := Int × Int

/-- Fog-of-war states, FOG_STATES in Tile.js: hidden, shrouded, revealed. -/
inductive Fog where
  | hidden
  | shrouded
  | revealed
deriving DecidableEq

/-- Rank of a fog state in the advancement order hidden, shrouded, revealed. -/
def Fog.rank : Fog → Nat
  | .hidden => 0
  | .shrouded => 1
  | .revealed => 2

/-- Loot descriptor carried by a tile (opaque to the verified claims). -/
structure Loot where
  type : String
  amount : Int
deriving DecidableEq

/-- Tile from Tile.js: static terrain data plus the dynamic fields
explored, visited and fogState. -/
structure Tile where
  q : Int
  r : Int
  type : String
  name : String
  descr : String
  explorable : Bool
  events : List String
  loot : Option Loot
  blocked : Bool
  blockReason : String
  explored : Bool
  visited : Bool
  fogState : Fog
deriving DecidableEq

/-- Terrain constant TILE_TYPES.DEEP_WATER. -/
def DEEP_WATER : String := "deep_water"

/-- The six axial directions (pointy-top), in the order of the source arrays. -/
def AXIAL_DIRECTIONS : List (Int × Int) :=
  [(1, 0), (1, -1), (0, -1), (-1, 0), (-1, 1), (0, 1)]

/-- Board from Board.js: the tiles in insertion order of the underlying
Map; a later tile with the same key overrides an earlier one. -/
abbrev Board := List Tile

/-- Key of a tile, the JS string "q,r" modelled as the coordinate pair. -/
def Tile.key (t : Tile) : Coord := (t.q, t.r)

/-- Board.getTile: Map lookup by key; the last inserted tile wins. -/
def getTile (b : Board) (q r : Int) : Option Tile :=
  b.reverse.find? fun t => t.q == q && t.r == r

/-- Board.getNeighbors: the existing tiles at the six axial offsets. -/
def getNeighbors (b : Board) (q r : Int) : List Tile :=
  AXIAL_DIRECTIONS.filterMap fun d => getTile b (q + d.1) (r + d.2)

/-- Board.getMovableTiles: neighbors that are explorable, not blocked and
not deep water. -/
def getMovableTiles (b : Board) (q r : Int) : List Tile :=
  (getNeighbors b q r).filter fun t =>
    t.explorable && !t.blocked && t.type != DEEP_WATER

/-- Replace the tile stored under key (q, r); the JS code mutates the Tile
object held by the Map. -/
def updateTile (b : Board) (q r : Int) (f : Tile → Tile) : Board :=
  b.map fun t => if t.q == q && t.r == r then f t else t

/-- Assignment tile.fogState = FOG_STATES.REVEALED. -/
def setFogRevealed (t : Tile) : Tile := { t with fogState := .revealed }

/-- The loop body of Board.revealTile over neighbors: a hidden neighbor
becomes shrouded, any other fog state is left alone. -/
def shroudIfHidden (t : Tile) : Tile :=
  if t.fogState = .hidden then { t with fogState := .shrouded } else t

/-- Assignments tile.visited = true; tile.explored = true in exploreTile. -/
def markVisitedExplored (t : Tile) : Tile :=
  { t with visited := true, explored := true }

/-- Board.revealTile: no-op when the coordinate is unknown; otherwise set
the tile revealed, then turn each hidden existing neighbor shrouded. -/
def revealTile (b : Board) (q r : Int) : Board :=
  match getTile b q r with
  | none => b
  | some _ =>
    let b1 := updateTile b q r setFogRevealed
    AXIAL_DIRECTIONS.foldl
      (fun acc d => updateTile acc (q + d.1) (r + d.2) shroudIfHidden) b1

/-- Board.exploreTile: no-op when the coordinate is unknown; otherwise mark
the tile visited and explored, reveal it, and then also reveal every
existing neighbor (each via revealTile). -/
def exploreTile (b : Board) (q r : Int) : Board :=
  match getTile b q r with
  | none => b
  | some _ =>
    let b1 := updateTile b q r markVisitedExplored
    let b2 := revealTile b1 q r
    AXIAL_DIRECTIONS.foldl
      (fun acc d =>
        match getTile b2 (q + d.1) (r + d.2) with
        | none => acc
        | some _ => revealTile acc (q + d.1) (r + d.2)) b2

/-- Pointwise relation between a tile and its later self: the key is
unchanged, fog only advances, and visited/explored are never cleared. -/
def TileLe (t u : Tile) : Prop :=
  t.q = u.q ∧ t.r = u.r ∧ t.fogState.rank ≤ u.fogState.rank ∧
    (t.visited = true → u.visited = true) ∧ (t.explored = true → u.explored = true)

/-- Pointwise evolution order on boards. -/
def BoardLe (b c : Board) : Prop := List.Forall₂ TileLe b c

theorem tileLe_refl (t : Tile) : TileLe t t :=
  ⟨rfl, rfl, le_refl _, fun h => h, fun h => h⟩

theorem tileLe_trans {t u v : Tile} (h1 : TileLe t u) (h2 : TileLe u v) : TileLe t v := by
  obtain ⟨a1, b1, c1, d1, e1⟩ := h1
  obtain ⟨a2, b2, c2, d2, e2⟩ := h2
  exact ⟨a1.trans a2, b1.trans b2, c1.trans c2, fun h => d2 (d1 h), fun h => e2 (e1 h)⟩

theorem boardLe_refl (b : Board) : BoardLe b b :=
  List.forall₂_same.mpr fun t _ => tileLe_refl t

theorem boardLe_trans {b c d : Board} (h1 : BoardLe b c) (h2 : BoardLe c d) : BoardLe b d := by
  induction h1 generalizing d with
  | nil =>
    cases h2
    exact List.Forall₂.nil
  | cons hab h ih =>
    cases h2 with
    | cons hcd h2t => exact List.Forall₂.cons (tileLe_trans hab hcd) (ih h2t)

theorem boardLe_map {f : Tile → Tile} (hf : ∀ t, TileLe t (f t)) (b : Board) :
    BoardLe b (b.map f) := by
  induction b with
  | nil => exact List.Forall₂.nil
  | cons t rest ih => exact List.Forall₂.cons (hf t) ih

theorem tileLe_updateTile_fun {q r : Int} {f : Tile → Tile} (hf : ∀ t, TileLe t (f t))
    (t : Tile) : TileLe t (if t.q == q && t.r == r then f t else t) := by
  by_cases h : (t.q == q && t.r == r) = true
  · simpa [h] using hf t
  · simp only [h]
    exact tileLe_refl t

theorem boardLe_updateTile (b : Board) (q r : Int) {f : Tile → Tile}
    (hf : ∀ t, TileLe t (f t)) : BoardLe b (updateTile b q r f) :=
  boardLe_map (tileLe_updateTile_fun hf) b

theorem tileLe_setFogRevealed (t : Tile) : TileLe t (setFogRevealed t) := by
  refine ⟨rfl, rfl, ?_, fun h => h, fun h => h⟩
  cases h : t.fogState <;> simp [setFogRevealed, Fog.rank]

theorem tileLe_shroudIfHidden (t : Tile) : TileLe t (shroudIfHidden t) := by
  unfold shroudIfHidden
  by_cases h : t.fogState = .hidden
  · simp only [h, if_pos rfl]
    exact ⟨rfl, rfl, by simp [h, Fog.rank], fun h2 => h2, fun h2 => h2⟩
  · simp only [if_neg h]
    exact tileLe_refl t

theorem tileLe_markVisitedExplored (t : Tile) : TileLe t (markVisitedExplored t) :=
  ⟨rfl, rfl, le_refl _, fun _ => rfl, fun _ => rfl⟩

theorem boardLe_shroudFold (b : Board) (q r : Int) (ds : List (Int × Int)) :
    BoardLe b (ds.foldl (fun acc d => updateTile acc (q + d.1) (r + d.2) shroudIfHidden) b) := by
  induction ds generalizing b with
  | nil => exact boardLe_refl b
  | cons d rest ih =>
    exact boardLe_trans (boardLe_updateTile b _ _ tileLe_shroudIfHidden) (ih _)

theorem boardLe_revealTile (b : Board) (q r : Int) : BoardLe b (revealTile b q r) := by
  unfold revealTile
  cases h : getTile b q r with
  | none => exact boardLe_refl b
  | some t =>
    exact boardLe_trans (boardLe_updateTile b q r tileLe_setFogRevealed)
      (boardLe_shroudFold _ q r AXIAL_DIRECTIONS)

theorem boardLe_revealFold (b2 : Board) (q r : Int) (ds : List (Int × Int)) (b : Board) :
    BoardLe b (ds.foldl
      (fun acc d =>
        match getTile b2 (q + d.1) (r + d.2) with
        | none => acc
        | some _ => revealTile acc (q + d.1) (r + d.2)) b) := by
  induction ds generalizing b with
  | nil => exact boardLe_refl b
  | cons d rest ih =>
    cases h : getTile b2 (q + d.1) (r + d.2) with
    | none =>
      simp only [List.foldl_cons, h]
      exact ih b
    | some t =>
      simp only [List.foldl_cons, h]
      exact boardLe_trans (boardLe_revealTile b _ _) (ih _)

theorem boardLe_exploreTile (b : Board) (q r : Int) : BoardLe b (exploreTile b q r) := by
  unfold exploreTile
  cases h : getTile b q r with
  | none => exact boardLe_refl b
  | some t =>
    refine boardLe_trans (boardLe_updateTile b q r tileLe_markVisitedExplored) ?_
    exact boardLe_trans (boardLe_revealTile _ q r) (boardLe_revealFold _ q r _ _)

theorem forall₂_find?_key {l1 l2 : List Tile} (h : List.Forall₂ TileLe l1 l2) (q r : Int) :
    ∀ t, l1.find? (fun t => t.q == q && t.r == r) = some t →
      ∃ u, l2.find? (fun t => t.q == q && t.r == r) = some u ∧ TileLe t u := by
  induction h with
  | nil => intro t ht; simp at ht
  | cons hd tl ih =>
    rename_i x y xs ys
    intro t ht
    have hkey : (x.q == q && x.r == r) = (y.q == q && y.r == r) := by
      obtain ⟨hq, hr, -⟩ := hd
      rw [hq, hr]
    by_cases hx : (x.q == q && x.r == r) = true
    · simp only [List.find?_cons, hx] at ht
      simp only [List.find?_cons, hkey ▸ hx]
      exact ⟨y, rfl, by rw [← Option.some_inj.mp ht]; exact hd⟩
    · have hx2 : (x.q == q && x.r == r) = false := by simpa using hx
      simp only [List.find?_cons, hx2] at ht
      simp only [List.find?_cons, hkey ▸ hx2]
      exact ih t ht

theorem boardLe_getTile {b c : Board} (h : BoardLe b c) (q r : Int) :
    ∀ t, getTile b q r = some t →
      ∃ u, getTile c q r = some u ∧ TileLe t u :=
  forall₂_find?_key (List.rel_reverse h) q r

end LePhare

namespace LePhare

theorem getTile_key {b : Board} {q r : Int} {t : Tile} (h : getTile b q r = some t) :
    t.q = q ∧ t.r = r := by
  have hp := List.find?_some h
  simp only [Bool.and_eq_true, beq_iff_eq] at hp
  exact hp

theorem getTile_updateTile (b : Board) (q r : Int) {f : Tile → Tile}
    (hf : ∀ t, (f t).q = t.q ∧ (f t).r = t.r) (q2 r2 : Int) :
    getTile (updateTile b q r f) q2 r2 =
      (getTile b q2 r2).map fun t => if t.q == q && t.r == r then f t else t := by
  unfold getTile updateTile
  rw [← List.map_reverse, List.find?_map]
  have hpred : ((fun t : Tile => t.q == q2 && t.r == r2) ∘
      fun t => if t.q == q && t.r == r then f t else t) =
      fun t : Tile => t.q == q2 && t.r == r2 := by
    funext t
    by_cases h : (t.q == q && t.r == r) = true
    · simp [Function.comp, h, (hf t).1, (hf t).2]
    · simp only [Bool.not_eq_true] at h
      simp [Function.comp, h]
  rw [hpred]

theorem getTile_updateTile_self {b : Board} {q r : Int} {t : Tile} {f : Tile → Tile}
    (hf : ∀ u, (f u).q = u.q ∧ (f u).r = u.r) (h : getTile b q r = some t) :
    getTile (updateTile b q r f) q r = some (f t) := by
  rw [getTile_updateTile b q r hf q r, h]
  obtain ⟨hq, hr⟩ := getTile_key h
  simp [hq, hr]

theorem getTile_updateTile_ne {b : Board} {q r q2 r2 : Int} {f : Tile → Tile}
    (hf : ∀ u, (f u).q = u.q ∧ (f u).r = u.r) (hne : ¬(q2 = q ∧ r2 = r)) :
    getTile (updateTile b q r f) q2 r2 = getTile b q2 r2 := by
  rw [getTile_updateTile b q r hf q2 r2]
  cases h : getTile b q2 r2 with
  | none => rfl
  | some t =>
    obtain ⟨hq, hr⟩ := getTile_key h
    have hkey : (t.q == q && t.r == r) = false := by
      rw [hq, hr]
      simp only [Bool.and_eq_false_iff, beq_eq_false_iff_ne, ne_eq]
      tauto
    simp [hkey]
    intro h1 h2
    exact absurd ⟨by rw [← hq]; exact h1, by rw [← hr]; exact h2⟩ hne

theorem keyPres_setFogRevealed : ∀ t : Tile, (setFogRevealed t).q = t.q ∧ (setFogRevealed t).r = t.r :=
  fun _ => ⟨rfl, rfl⟩

theorem keyPres_shroudIfHidden : ∀ t : Tile, (shroudIfHidden t).q = t.q ∧ (shroudIfHidden t).r = t.r := by
  intro t
  unfold shroudIfHidden
  split <;> exact ⟨rfl, rfl⟩

theorem keyPres_markVisitedExplored :
    ∀ t : Tile, (markVisitedExplored t).q = t.q ∧ (markVisitedExplored t).r = t.r :=
  fun _ => ⟨rfl, rfl⟩

theorem getTile_shroudFold_center (b : Board) (q r : Int) (ds : List (Int × Int))
    (hds : ∀ d ∈ ds, ¬(d.1 = 0 ∧ d.2 = 0)) :
    getTile (ds.foldl (fun acc d => updateTile acc (q + d.1) (r + d.2) shroudIfHidden) b) q r =
      getTile b q r := by
  induction ds generalizing b with
  | nil => rfl
  | cons d rest ih =>
    simp only [List.foldl_cons]
    rw [ih _ fun e he => hds e (List.mem_cons_of_mem d he)]
    refine getTile_updateTile_ne keyPres_shroudIfHidden ?_
    have := hds d (List.mem_cons_self d rest)
    intro hcon
    exact this ⟨by omega, by omega⟩

theorem axial_ne_zero : ∀ d ∈ AXIAL_DIRECTIONS, ¬(d.1 = 0 ∧ d.2 = 0) := by decide

theorem getTile_revealTile_self {b : Board} {q r : Int} {t : Tile}
    (h : getTile b q r = some t) :
    getTile (revealTile b q r) q r = some (setFogRevealed t) := by
  unfold revealTile
  rw [h]
  rw [getTile_shroudFold_center _ q r AXIAL_DIRECTIONS axial_ne_zero]
  exact getTile_updateTile_self keyPres_setFogRevealed h

theorem fog_rank_le_two (f : Fog) : f.rank ≤ 2 := by
  cases f <;> simp [Fog.rank]

theorem fog_eq_revealed_of_two_le {f : Fog} (h : 2 ≤ f.rank) : f = Fog.revealed := by
  cases f <;> simp [Fog.rank] at h ⊢

theorem tileLe_revealed_stays {t u : Tile} (h : TileLe t u) (ht : t.fogState = Fog.revealed) :
    u.fogState = Fog.revealed := by
  obtain ⟨-, -, hr, -, -⟩ := h
  rw [ht] at hr
  exact fog_eq_revealed_of_two_le (le_trans (by simp [Fog.rank]) hr)

end LePhare

namespace LePhare

theorem revealFold_mem (b2 : Board) (q r : Int) (ds : List (Int × Int)) (d : Int × Int)
    (hd : d ∈ ds) (acc : Board) (n2 : Tile)
    (h2 : getTile b2 (q + d.1) (r + d.2) = some n2)
    (ha : ∃ na, getTile acc (q + d.1) (r + d.2) = some na) :
    ∃ u, getTile (ds.foldl
        (fun acc d =>
          match getTile b2 (q + d.1) (r + d.2) with
          | none => acc
          | some _ => revealTile acc (q + d.1) (r + d.2)) acc) (q + d.1) (r + d.2) = some u ∧
      u.fogState = Fog.revealed := by
  induction ds generalizing acc with
  | nil => cases hd
  | cons e rest ih =>
    rcases List.mem_cons.mp hd with heq | hdr
    · subst heq
      simp only [List.foldl_cons, h2]
      obtain ⟨na, hna⟩ := ha
      have hstep : getTile (revealTile acc (q + d.1) (r + d.2)) (q + d.1) (r + d.2) =
          some (setFogRevealed na) := getTile_revealTile_self hna
      obtain ⟨u, hu, hlu⟩ :=
        boardLe_getTile (boardLe_revealFold b2 q r rest _) (q + d.1) (r + d.2) _ hstep
      exact ⟨u, hu, tileLe_revealed_stays hlu rfl⟩
    · simp only [List.foldl_cons]
      obtain ⟨na, hna⟩ := ha
      cases hgt : getTile b2 (q + e.1) (r + e.2) with
      | none =>
        simp only [hgt]
        exact ih hdr acc ⟨na, hna⟩
      | some w =>
        simp only [hgt]
        obtain ⟨na2, hna2, -⟩ :=
          boardLe_getTile (boardLe_revealTile acc (q + e.1) (r + e.2)) (q + d.1) (r + d.2) _ hna
        exact ih hdr _ ⟨na2, hna2⟩

/-- Fog-mutating board operations named by the claims: Board.exploreTile and
Board.revealTile. -/
inductive BoardOp where
  | explore (q r : Int)
  | reveal (q r : Int)

/-- Apply a sequence of exploreTile / revealTile calls to the board. -/
def applyBoardOps (b : Board) (ops : List BoardOp) : Board :=
  ops.foldl
    (fun acc op =>
      match op with
      | .explore q r => exploreTile acc q r
      | .reveal q r => revealTile acc q r) b

theorem boardLe_applyBoardOps (b : Board) (ops : List BoardOp) :
    BoardLe b (applyBoardOps b ops) := by
  induction ops generalizing b with
  | nil => exact boardLe_refl b
  | cons op rest ih =>
    refine boardLe_trans ?_ (ih _)
    cases op with
    | explore q r =>
      simp only [List.foldl_cons]
      exact boardLe_exploreTile b q r
    | reveal q r =>
      simp only [List.foldl_cons]
      exact boardLe_revealTile b q r

end LePhare

namespace LePhare

/-- Minimal tile used by concrete checks: shore terrain, explorable,
unblocked, initially hidden. -/
def sampleTile (q r : Int) : Tile :=
  { q := q, r := r, type := "shore", name := "", descr := "",
    explorable := true, events := [], loot := none, blocked := false,
    blockReason := "", explored := false, visited := false, fogState := .hidden }

/-- Two-tile board: a center at (0,0) and its eastern neighbor (1,0). -/
def sampleBoard : Board := [sampleTile 0 0, sampleTile 1 0]

/-- Claim C8 (confirmed): under any sequence of exploreTile / revealTile
calls, the fog state of every tile only advances in rank along
hidden, shrouded, revealed and never moves backward. -/
theorem c8_fog_monotone (b : Board) (ops : List BoardOp) (q r : Int) (t u : Tile)
    (h1 : getTile b q r = some t) (h2 : getTile (applyBoardOps b ops) q r = some u) :
    t.fogState.rank ≤ u.fogState.rank := by
  obtain ⟨v, hv, hlv⟩ := boardLe_getTile (boardLe_applyBoardOps b ops) q r t h1
  rw [h2] at hv
  rw [Option.some_inj.mp hv]
  exact hlv.2.2.1

/-- Witness for C8: on the concrete two-tile board, one exploreTile call
advances the hidden center tile and the conclusion of the claim theorem
holds at that input. -/
theorem c8_witness :
    (sampleTile 0 0).fogState.rank ≤
      (markVisitedExplored (setFogRevealed (sampleTile 0 0))).fogState.rank :=
  c8_fog_monotone sampleBoard [BoardOp.explore 0 0] 0 0 (sampleTile 0 0)
    (markVisitedExplored (setFogRevealed (sampleTile 0 0))) (by decide) (by decide)

/-- Counterexample to C2 as stated: on the two-tile board, exploring the
center (0,0) advances the hidden neighbor (1,0) all the way to revealed,
not merely to shrouded. -/
theorem c2_counterexample :
    (getTile sampleBoard 1 0).map Tile.fogState = some Fog.hidden ∧
    (getTile (exploreTile sampleBoard 0 0) 1 0).map Tile.fogState = some Fog.revealed ∧
    Fog.revealed ≠ Fog.shrouded := by decide

/-- Claim C2 (corrected): for every coordinate present on the board,
exploreTile marks that tile visited and explored and sets its fog to
revealed, and it sets the fog of every existing neighbor to revealed as
well (each neighbor is passed to revealTile), not merely to shrouded. -/
theorem c2_explore_reveals (b : Board) (q r : Int) (t : Tile)
    (h : getTile b q r = some t) :
    (∃ u, getTile (exploreTile b q r) q r = some u ∧
        u.visited = true ∧ u.explored = true ∧ u.fogState = Fog.revealed) ∧
    ∀ d ∈ AXIAL_DIRECTIONS, ∀ n, getTile b (q + d.1) (r + d.2) = some n →
      ∃ u, getTile (exploreTile b q r) (q + d.1) (r + d.2) = some u ∧
        u.fogState = Fog.revealed := by
  have hb1 : getTile (updateTile b q r markVisitedExplored) q r =
      some (markVisitedExplored t) :=
    getTile_updateTile_self keyPres_markVisitedExplored h
  have hb2 : getTile (revealTile (updateTile b q r markVisitedExplored) q r) q r =
      some (setFogRevealed (markVisitedExplored t)) := getTile_revealTile_self hb1
  have hexp : exploreTile b q r =
      AXIAL_DIRECTIONS.foldl
        (fun acc d =>
          match getTile (revealTile (updateTile b q r markVisitedExplored) q r)
              (q + d.1) (r + d.2) with
          | none => acc
          | some _ => revealTile acc (q + d.1) (r + d.2))
        (revealTile (updateTile b q r markVisitedExplored) q r) := by
    unfold exploreTile
    rw [h]
  constructor
  · rw [hexp]
    obtain ⟨u, hu, hlu⟩ :=
      boardLe_getTile (boardLe_revealFold _ q r AXIAL_DIRECTIONS _) q r _ hb2
    exact ⟨u, hu, hlu.2.2.2.1 rfl, hlu.2.2.2.2 rfl, tileLe_revealed_stays hlu rfl⟩
  · intro d hd n hn
    have hle02 : BoardLe b (revealTile (updateTile b q r markVisitedExplored) q r) :=
      boardLe_trans (boardLe_updateTile b q r tileLe_markVisitedExplored)
        (boardLe_revealTile _ q r)
    obtain ⟨n2, hn2, -⟩ := boardLe_getTile hle02 (q + d.1) (r + d.2) _ hn
    rw [hexp]
    exact revealFold_mem _ q r AXIAL_DIRECTIONS d hd _ n2 hn2 ⟨n2, hn2⟩

/-- Witness for C2 (corrected): the amended theorem applied to the concrete
two-tile board at the center coordinate. -/
theorem c2_witness :
    (∃ u, getTile (exploreTile sampleBoard 0 0) 0 0 = some u ∧
        u.visited = true ∧ u.explored = true ∧ u.fogState = Fog.revealed) ∧
    ∀ d ∈ AXIAL_DIRECTIONS, ∀ n, getTile sampleBoard (0 + d.1) (0 + d.2) = some n →
      ∃ u, getTile (exploreTile sampleBoard 0 0) (0 + d.1) (0 + d.2) = some u ∧
        u.fogState = Fog.revealed :=
  c2_explore_reveals sampleBoard 0 0 (sampleTile 0 0) (by decide)

end LePhare

namespace LePhare

/-- PathFinder.getValidMoves: the coordinates one step away whose tile
exists, is explorable, is not blocked and is not deep water, in the fixed
direction order. -/
def getValidMoves (b : Board) (q r : Int) : List Coord :=
  AXIAL_DIRECTIONS.filterMap fun d =>
    match getTile b (q + d.1) (r + d.2) with
    | none => none
    | some t =>
      if t.explorable && !t.blocked && t.type != DEEP_WATER then
        some (q + d.1, r + d.2)
      else none

/-- PathFinder.getDistance: cube-coordinate distance with s = -q - r. -/
def getDistance (q1 r1 q2 r2 : Int) : Nat :=
  max (q1 - q2).natAbs (max (r1 - r2).natAbs ((-q1 - r1 - (-q2 - r2)).natAbs))

/-- PathFinder.isAdjacent: two hexes are adjacent when their distance is 1. -/
def isAdjacent (q1 r1 q2 r2 : Int) : Bool :=
  getDistance q1 r1 q2 r2 == 1

/-- PathFinder.isValidMove: adjacency plus membership in getValidMoves. -/
def isValidMove (b : Board) (q1 r1 q2 r2 : Int) : Bool :=
  isAdjacent q1 r1 q2 r2 && decide ((q2, r2) ∈ getValidMoves b q1 r1)

/-- Queue entry of the BFS in PathFinder.findPath: the current coordinate
and the path from the start up to and including it. -/
abbrev Entry := Coord × List Coord

/-- Inner loop of PathFinder.findPath over the valid moves of the dequeued
entry: already-visited moves are skipped, the end coordinate returns the
extended path, any other move is marked visited and enqueued. -/
def stepMoves (endC : Coord) (curPath : List Coord) :
    List Coord → List Coord → List Entry → Sum (List Coord) (List Coord × List Entry)
  | [], visited, queue => .inr (visited, queue)
  | m :: rest, visited, queue =>
    if m ∈ visited then stepMoves endC curPath rest visited queue
    else
      if m = endC then .inl (curPath ++ [m])
      else stepMoves endC curPath rest (m :: visited) (queue ++ [(m, curPath ++ [m])])

/-- Outer loop of PathFinder.findPath; the fuel argument bounds the number
of dequeue steps, which the caller sets high enough for every run. -/
def bfsAux (b : Board) (endC : Coord) : Nat → List Entry → List Coord → Option (List Coord)
  | 0, _, _ => none
  | _ + 1, [], _ => none
  | fuel + 1, cur :: rest, visited =>
    match stepMoves endC cur.2 (getValidMoves b cur.1.1 cur.1.2) visited rest with
    | .inl p => some p
    | .inr (v2, q2) => bfsAux b endC fuel q2 v2

/-- PathFinder.findPath: the trivial one-coordinate path when start equals
end, otherwise breadth-first search from the start. The number of dequeue
steps of a run is at most the number of the board's tiles plus one, so the
fuel never runs out before the queue empties. -/
def findPath (b : Board) (q1 r1 q2 r2 : Int) : Option (List Coord) :=
  if (q1, r1) = ((q2, r2) : Coord) then some [(q1, r1)]
  else bfsAux b (q2, r2) (b.length + 1) [((q1, r1), [(q1, r1)])] [(q1, r1)]

/-- Chain predicate: every consecutive pair of the list is a step of the
movement graph given by getValidMoves. -/
def isChain (b : Board) : List Coord → Bool
  | [] => true
  | [_] => true
  | x :: y :: rest => decide (y ∈ getValidMoves b x.1 x.2) && isChain b (y :: rest)

/-- Movement-graph path from s to e inclusive. -/
def IsPath (b : Board) (s e : Coord) (p : List Coord) : Prop :=
  p.head? = some s ∧ p.getLast? = some e ∧ isChain b p = true

instance (b : Board) (s e : Coord) (p : List Coord) : Decidable (IsPath b s e p) :=
  decidable_of_iff (p.head? = some s ∧ p.getLast? = some e ∧ isChain b p = true) Iff.rfl

/-- Claim C10 (confirmed): when start equals end, findPath returns the
one-element path immediately, for every board, even one on which the start
tile is missing or blocked. -/
theorem c10_trivial_path (b : Board) (q r : Int) :
    findPath b q r q r = some [(q, r)] := by
  simp [findPath]

end LePhare

namespace LePhare

theorem isChain_concat {b : Board} {p : List Coord} {w m : Coord}
    (hp : isChain b p = true) (hlast : p.getLast? = some w)
    (hm : m ∈ getValidMoves b w.1 w.2) : isChain b (p ++ [m]) = true := by
  induction p generalizing w with
  | nil => simp at hlast
  | cons x rest ih =>
    cases rest with
    | nil =>
      simp only [List.getLast?_singleton, Option.some_inj] at hlast
      subst hlast
      simp [isChain, hm]
    | cons y rest2 =>
      simp only [isChain, Bool.and_eq_true, decide_eq_true_eq] at hp
      have hlast2 : (y :: rest2).getLast? = some w := by
        rw [List.getLast?_cons_cons] at hlast
        exact hlast
      have := ih hp.2 hlast2 hm
      simp only [List.cons_append, isChain, Bool.and_eq_true, decide_eq_true_eq]
      exact ⟨hp.1, this⟩

theorem IsPath.extend {b : Board} {s w m : Coord} {p : List Coord}
    (h : IsPath b s w p) (hm : m ∈ getValidMoves b w.1 w.2) :
    IsPath b s m (p ++ [m]) := by
  obtain ⟨hhd, hlast, hchain⟩ := h
  refine ⟨?_, ?_, isChain_concat hchain hlast hm⟩
  · cases p with
    | nil => simp at hhd
    | cons x rest => simpa using hhd
  · exact List.getLast?_concat _

theorem stepMoves_inl {endC : Coord} {curPath : List Coord} {moves visited : List Coord}
    {queue : List Entry} {p : List Coord}
    (h : stepMoves endC curPath moves visited queue = .inl p) :
    endC ∈ moves ∧ p = curPath ++ [endC] := by
  induction moves generalizing visited queue with
  | nil => simp [stepMoves] at h
  | cons m rest ih =>
    rw [stepMoves] at h
    by_cases hv : m ∈ visited
    · rw [if_pos hv] at h
      obtain ⟨h1, h2⟩ := ih h
      exact ⟨List.mem_cons_of_mem m h1, h2⟩
    · rw [if_neg hv] at h
      by_cases he : m = endC
      · rw [if_pos he] at h
        subst he
        exact ⟨List.mem_cons_self m rest, (Sum.inl.inj h).symm⟩
      · rw [if_neg he] at h
        obtain ⟨h1, h2⟩ := ih h
        exact ⟨List.mem_cons_of_mem m h1, h2⟩

theorem stepMoves_inr {endC : Coord} {curPath : List Coord} {moves visited : List Coord}
    {queue : List Entry} {v2 : List Coord} {q2 : List Entry}
    (hend : endC ∉ visited)
    (h : stepMoves endC curPath moves visited queue = .inr (v2, q2)) :
    ∃ news : List Entry,
      q2 = queue ++ news ∧
      v2 = (news.map Prod.fst).reverse ++ visited ∧
      (∀ e ∈ news, e.2 = curPath ++ [e.1] ∧ e.1 ∈ moves ∧ e.1 ∉ visited ∧ e.1 ≠ endC) ∧
      (news.map Prod.fst).Nodup ∧
      endC ∉ moves ∧
      (∀ m ∈ moves, m ∈ v2) := by
  induction moves generalizing visited queue with
  | nil =>
    rw [stepMoves] at h
    obtain ⟨hv, hq⟩ := Prod.mk.inj (Sum.inr.inj h)
    refine ⟨[], by simp [hq.symm], by simp [hv.symm], by simp, by simp, by simp, by simp⟩
  | cons m rest ih =>
    rw [stepMoves] at h
    by_cases hv : m ∈ visited
    · rw [if_pos hv] at h
      obtain ⟨news, h1, h2, h3, h4, h5, h6⟩ := ih hend h
      refine ⟨news, h1, h2, ?_, h4, ?_, ?_⟩
      · exact fun e he => ⟨(h3 e he).1, List.mem_cons_of_mem m (h3 e he).2.1,
          (h3 e he).2.2.1, (h3 e he).2.2.2⟩
      · intro hc
        rcases List.mem_cons.mp hc with rfl | hc2
        · exact hend hv
        · exact h5 hc2
      · intro m2 hm2
        rcases List.mem_cons.mp hm2 with rfl | hm3
        · rw [h2]
          exact List.mem_append_right _ hv
        · exact h6 m2 hm3
    · rw [if_neg hv] at h
      by_cases he : m = endC
      · rw [if_pos he] at h
        cases h
      · rw [if_neg he] at h
        have hend2 : endC ∉ m :: visited := by
          intro hc
          rcases List.mem_cons.mp hc with rfl | hc2
          · exact he rfl
          · exact hend hc2
        obtain ⟨news, h1, h2, h3, h4, h5, h6⟩ := ih hend2 h
        refine ⟨(m, curPath ++ [m]) :: news, ?_, ?_, ?_, ?_, ?_, ?_⟩
        · rw [h1, List.append_assoc]
          rfl
        · rw [h2]
          simp [List.append_assoc]
        · intro e hee
          rcases List.mem_cons.mp hee with rfl | he2
          · exact ⟨rfl, List.mem_cons_self m rest, hv, he⟩
          · obtain ⟨p1, p2, p3, p4⟩ := h3 e he2
            refine ⟨p1, List.mem_cons_of_mem m p2, fun hc => p3 (List.mem_cons_of_mem m hc), p4⟩
        · simp only [List.map_cons, List.nodup_cons]
          refine ⟨?_, h4⟩
          intro hc
          obtain ⟨e, hee, hfst⟩ := List.mem_map.mp hc
          exact (h3 e hee).2.2.1 (hfst ▸ List.mem_cons_self m visited)
        · intro hc
          rcases List.mem_cons.mp hc with rfl | hc2
          · exact he rfl
          · exact h5 hc2
        · intro m2 hm2
          rcases List.mem_cons.mp hm2 with rfl | hm3
          · rw [h2]
            exact List.mem_append_right _ (List.mem_cons_self m2 visited)
          · exact h6 m2 hm3

theorem bfsAux_sound (b : Board) (s endC : Coord) :
    ∀ (fuel : Nat) (q : List Entry) (v : List Coord) (p : List Coord),
      (∀ e ∈ q, IsPath b s e.1 e.2) → endC ∉ v →
      bfsAux b endC fuel q v = some p → IsPath b s endC p := by
  intro fuel
  induction fuel with
  | zero => intro q v p _ _ h; simp [bfsAux] at h
  | succ n ih =>
    intro q v p hq hend h
    cases q with
    | nil => simp [bfsAux] at h
    | cons cur rest =>
      rw [bfsAux] at h
      cases hstep : stepMoves endC cur.2 (getValidMoves b cur.1.1 cur.1.2) v rest with
      | inl p0 =>
        rw [hstep] at h
        obtain ⟨hmem, hp0⟩ := stepMoves_inl hstep
        have hcur := hq cur (List.mem_cons_self cur rest)
        have := IsPath.extend hcur hmem
        rwa [← hp0, Option.some_inj.mp h] at this
      | inr pr =>
        rw [hstep] at h
        obtain ⟨v2, q2⟩ := pr
        obtain ⟨news, hq2, hv2, hnews, -, -, -⟩ := stepMoves_inr hend hstep
        refine ih q2 v2 p ?_ ?_ h
        · intro e hee
          rw [hq2] at hee
          rcases List.mem_append.mp hee with h1 | h2
          · exact hq e (List.mem_cons_of_mem cur h1)
          · obtain ⟨p1, p2, -, -⟩ := hnews e h2
            have hcur := hq cur (List.mem_cons_self cur rest)
            rw [p1]
            exact IsPath.extend hcur p2
        · rw [hv2]
          intro hc
          rcases List.mem_append.mp hc with h1 | h2
          · obtain ⟨e, hee, hfst⟩ := List.mem_map.mp (List.mem_reverse.mp h1)
            exact (hnews e hee).2.2.2 hfst
          · exact hend h2

end LePhare

namespace LePhare

theorem getDistance_triangle (q1 r1 q2 r2 q3 r3 : Int) :
    getDistance q1 r1 q3 r3 ≤ getDistance q1 r1 q2 r2 + getDistance q2 r2 q3 r3 := by
  unfold getDistance
  refine max_le ?_ (max_le ?_ ?_)
  · calc (q1 - q3).natAbs ≤ (q1 - q2).natAbs + (q2 - q3).natAbs := by omega
      _ ≤ _ := Nat.add_le_add (le_max_left _ _) (le_max_left _ _)
  · calc (r1 - r3).natAbs ≤ (r1 - r2).natAbs + (r2 - r3).natAbs := by omega
      _ ≤ _ := Nat.add_le_add
          (le_trans (le_max_left _ _) (le_max_right _ _))
          (le_trans (le_max_left _ _) (le_max_right _ _))
  · calc (-q1 - r1 - (-q3 - r3)).natAbs ≤
        (-q1 - r1 - (-q2 - r2)).natAbs + (-q2 - r2 - (-q3 - r3)).natAbs := by omega
      _ ≤ _ := Nat.add_le_add
          (le_trans (le_max_right _ _) (le_max_right _ _))
          (le_trans (le_max_right _ _) (le_max_right _ _))

theorem getDistance_self (q r : Int) : getDistance q r q r = 0 := by
  unfold getDistance
  omega

theorem mem_getValidMoves_dir {b : Board} {q r : Int} {m : Coord}
    (h : m ∈ getValidMoves b q r) : ∃ d ∈ AXIAL_DIRECTIONS, m = (q + d.1, r + d.2) := by
  obtain ⟨d, hd, hf⟩ := List.mem_filterMap.mp h
  refine ⟨d, hd, ?_⟩
  split at hf
  · cases hf
  · split at hf
    · exact (Option.some_inj.mp hf).symm
    · cases hf

theorem getDistance_adjacent {b : Board} {q r : Int} {m : Coord}
    (h : m ∈ getValidMoves b q r) : getDistance q r m.1 m.2 = 1 := by
  obtain ⟨d, hd, hm⟩ := mem_getValidMoves_dir h
  subst hm
  simp only [AXIAL_DIRECTIONS, List.mem_cons, List.not_mem_nil, or_false] at hd
  rcases hd with rfl | rfl | rfl | rfl | rfl | rfl <;>
    · simp only [getDistance]
      omega

theorem isPath_length (b : Board) :
    ∀ (p : List Coord) (s e : Coord), IsPath b s e p →
      getDistance s.1 s.2 e.1 e.2 + 1 ≤ p.length := by
  intro p
  induction p with
  | nil => intro s e h; simp [IsPath] at h
  | cons x rest ih =>
    intro s e h
    obtain ⟨hhd, hlast, hch⟩ := h
    have hx : x = s := Option.some_inj.mp (by simpa using hhd)
    subst hx
    cases rest with
    | nil =>
      have he : x = e := Option.some_inj.mp (by simpa using hlast)
      subst he
      simp [getDistance_self]
    | cons y rest2 =>
      simp only [isChain, Bool.and_eq_true, decide_eq_true_eq] at hch
      have htail : IsPath b y e (y :: rest2) := by
        refine ⟨rfl, ?_, hch.2⟩
        rw [List.getLast?_cons_cons] at hlast
        exact hlast
      have hIH := ih y e htail
      have hadj : getDistance x.1 x.2 y.1 y.2 = 1 := getDistance_adjacent hch.1
      have htri := getDistance_triangle x.1 x.2 y.1 y.2 e.1 e.2
      rw [hadj] at htri
      simp only [List.length_cons] at hIH ⊢
      omega

/-- Keys of the tiles present on the board. -/
def boardKeys (b : Board) : List Coord := b.map Tile.key

/-- Number of distinct board keys not yet visited; the BFS termination
measure together with the queue length. -/
def ucount (b : Board) (v : List Coord) : Nat :=
  ((boardKeys b).toFinset.filter (fun c => c ∉ v)).card

theorem mem_getValidMoves_boardKeys {b : Board} {q r : Int} {m : Coord}
    (h : m ∈ getValidMoves b q r) : m ∈ boardKeys b := by
  obtain ⟨d, hd, hf⟩ := List.mem_filterMap.mp h
  split at hf
  · cases hf
  · rename_i t hg
    split at hf
    · have hm : m = (q + d.1, r + d.2) := (Option.some_inj.mp hf).symm
      have ht : t ∈ b := List.mem_reverse.mp (List.mem_of_find?_eq_some hg)
      obtain ⟨hq, hr⟩ := getTile_key hg
      have hkm : Tile.key t = m := by
        rw [Tile.key, hq, hr, hm]
      rw [← hkm]
      exact List.mem_map_of_mem Tile.key ht
    · cases hf

theorem ucount_cons {b : Board} {v : List Coord} {c : Coord}
    (hc : c ∈ boardKeys b) (hv : c ∉ v) : ucount b v = ucount b (c :: v) + 1 := by
  unfold ucount
  have hmem : c ∈ (boardKeys b).toFinset.filter (fun x => x ∉ v) := by
    simp [List.mem_toFinset, hc, hv]
  have herase : (boardKeys b).toFinset.filter (fun x => x ∉ (c :: v)) =
      ((boardKeys b).toFinset.filter (fun x => x ∉ v)).erase c := by
    ext x
    simp only [Finset.mem_filter, Finset.mem_erase, List.mem_cons, List.mem_toFinset]
    constructor
    · intro ⟨h1, h2⟩
      push_neg at h2
      exact ⟨h2.1, h1, h2.2⟩
    · intro ⟨h1, h2, h3⟩
      refine ⟨h2, ?_⟩
      push_neg
      exact ⟨h1, h3⟩
  rw [herase, Finset.card_erase_of_mem hmem]
  have hpos : 0 < ((boardKeys b).toFinset.filter (fun x => x ∉ v)).card :=
    Finset.card_pos.mpr ⟨c, hmem⟩
  omega

theorem ucount_prepend (b : Board) :
    ∀ (cs : List Coord) (v : List Coord),
      (∀ c ∈ cs, c ∈ boardKeys b) → (∀ c ∈ cs, c ∉ v) → cs.Nodup →
      ucount b v = ucount b (cs.reverse ++ v) + cs.length := by
  intro cs
  induction cs with
  | nil => intro v _ _ _; simp
  | cons c rest ih =>
    intro v hkeys hnotv hnodup
    have h1 : ucount b v = ucount b (c :: v) + 1 :=
      ucount_cons (hkeys c (List.mem_cons_self c rest)) (hnotv c (List.mem_cons_self c rest))
    have h2 := ih (c :: v)
      (fun x hx => hkeys x (List.mem_cons_of_mem c hx))
      (fun x hx hmem => by
        rcases List.mem_cons.mp hmem with rfl | hmm
        · exact (List.nodup_cons.mp hnodup).1 hx
        · exact hnotv x (List.mem_cons_of_mem c hx) hmm)
      (List.nodup_cons.mp hnodup).2
    have hre : (c :: rest).reverse ++ v = rest.reverse ++ (c :: v) := by
      rw [List.reverse_cons, List.append_assoc]
      rfl
    rw [hre, h1, h2]
    simp only [List.length_cons]
    omega

theorem ucount_le (b : Board) (v : List Coord) : ucount b v ≤ b.length := by
  calc ucount b v ≤ (boardKeys b).toFinset.card := Finset.card_filter_le _ _
    _ ≤ (boardKeys b).length := List.toFinset_card_le _
    _ = b.length := List.length_map _ _

end LePhare

namespace LePhare

theorem isChain_concat_decomp {b : Board} : ∀ (t : List Coord) (x w : Coord),
    isChain b (t ++ [x]) = true → t.getLast? = some w →
    isChain b t = true ∧ x ∈ getValidMoves b w.1 w.2 := by
  intro t
  induction t with
  | nil =>
    intro x w _ hl
    simp at hl
  | cons y t2 ih =>
    intro x w hch hl
    cases t2 with
    | nil =>
      simp only [List.getLast?_singleton, Option.some_inj] at hl
      subst hl
      simp only [List.cons_append, List.nil_append, isChain, Bool.and_eq_true,
        decide_eq_true_eq] at hch
      exact ⟨rfl, hch.1⟩
    | cons z t3 =>
      rw [List.getLast?_cons_cons] at hl
      simp only [List.cons_append, isChain, Bool.and_eq_true, decide_eq_true_eq] at hch
      obtain ⟨h1, h2c⟩ := hch
      have h2c2 : isChain b ((z :: t3) ++ [x]) = true := by
        simpa using h2c
      obtain ⟨h3, h4⟩ := ih x w h2c2 hl
      simp only [isChain, Bool.and_eq_true, decide_eq_true_eq]
      exact ⟨⟨h1, h3⟩, h4⟩

theorem reachable_in_visited (b : Board) (v : List Coord)
    (hcl : ∀ w ∈ v, ∀ m ∈ getValidMoves b w.1 w.2, m ∈ v) :
    ∀ (p : List Coord) (a u : Coord), IsPath b a u p → a ∈ v → u ∈ v := by
  intro p
  induction p with
  | nil =>
    intro a u hp _
    simp [IsPath] at hp
  | cons x rest ih =>
    intro a u hp ha
    obtain ⟨hhd, hlast, hch⟩ := hp
    have hx : x = a := Option.some_inj.mp (by simpa using hhd)
    subst hx
    cases rest with
    | nil =>
      have hxu : x = u := Option.some_inj.mp (by simpa using hlast)
      rwa [← hxu]
    | cons y rest2 =>
      simp only [isChain, Bool.and_eq_true, decide_eq_true_eq] at hch
      have hy : y ∈ v := hcl x ha y hch.1
      refine ih y u ⟨rfl, ?_, hch.2⟩ hy
      rw [List.getLast?_cons_cons] at hlast
      exact hlast

theorem queue_front_min {q : List Entry} {f : Entry}
    (hf : q.head? = some f)
    (h2 : List.Pairwise (fun e1 e2 : Entry => e1.2.length ≤ e2.2.length) q) :
    ∀ e ∈ q, f.2.length ≤ e.2.length := by
  cases q with
  | nil => cases hf
  | cons g rest =>
    have hg : g = f := Option.some_inj.mp (by simpa using hf)
    subst hg
    intro e he
    rcases List.mem_cons.mp he with rfl | h3
    · exact le_refl _
    · exact (List.pairwise_cons.mp h2).1 e h3

theorem pairwise_length_const {l : List Entry} {c : Nat} (h : ∀ e ∈ l, e.2.length = c) :
    List.Pairwise (fun e1 e2 : Entry => e1.2.length ≤ e2.2.length) l := by
  induction l with
  | nil => exact List.Pairwise.nil
  | cons e rest ih =>
    refine List.Pairwise.cons ?_ (ih fun x hx => h x (List.mem_cons_of_mem e hx))
    intro x hx
    rw [h e (List.mem_cons_self e rest), h x (List.mem_cons_of_mem e hx)]

theorem path_longer_than_front (b : Board) (s : Coord) (q : List Entry) (v : List Coord)
    (f : Entry) (hf : q.head? = some f)
    (hstart : s ∈ v)
    (h2 : List.Pairwise (fun e1 e2 : Entry => e1.2.length ≤ e2.2.length) q)
    (h3 : ∀ e ∈ q, ∀ pp, IsPath b s e.1 pp → e.2.length ≤ pp.length)
    (h5 : ∀ w ∈ v, (∀ pw, (w, pw) ∉ q) → ∀ m ∈ getValidMoves b w.1 w.2, m ∈ v) :
    ∀ (pu : List Coord) (u : Coord), u ∉ v → IsPath b s u pu →
      f.2.length + 1 ≤ pu.length := by
  intro pu
  induction pu using List.reverseRecOn with
  | nil =>
    intro u _ hp
    simp [IsPath] at hp
  | append_singleton t x ih =>
    intro u hu hp
    obtain ⟨hhd, hlast, hch⟩ := hp
    have hx : x = u := by
      rw [List.getLast?_concat] at hlast
      exact Option.some_inj.mp hlast
    subst hx
    cases t with
    | nil =>
      simp only [List.nil_append, List.head?_cons, Option.some_inj] at hhd
      rw [hhd] at hu
      exact absurd hstart hu
    | cons y t2 =>
      cases hlt : (y :: t2).getLast? with
      | none => simp [List.getLast?_eq_none_iff] at hlt
      | some w =>
        obtain ⟨hchain, hmove⟩ := isChain_concat_decomp (y :: t2) x w hch hlt
        have hhd2 : (y :: t2).head? = some s := by
          simpa using hhd
        have hpw : IsPath b s w (y :: t2) := ⟨hhd2, hlt, hchain⟩
        by_cases hwv : w ∈ v
        · by_cases hwq : ∃ pw, (w, pw) ∈ q
          · obtain ⟨pw, hpwq⟩ := hwq
            have hlen : pw.length ≤ (y :: t2).length := h3 (w, pw) hpwq (y :: t2) hpw
            have hmin : f.2.length ≤ pw.length := queue_front_min hf h2 (w, pw) hpwq
            simp only [List.length_append, List.length_cons, List.length_nil] at hlen ⊢
            omega
          · push_neg at hwq
            exact absurd (h5 w hwv hwq x hmove) hu
        · have := ih w hwv hpw
          simp only [List.length_append, List.length_cons, List.length_nil] at this ⊢
          omega

end LePhare

namespace LePhare

theorem bfsAux_complete (b : Board) (s endC : Coord) (pu : List Coord)
    (hpu : IsPath b s endC pu) :
    ∀ (fuel : Nat) (q : List Entry) (v : List Coord),
      s ∈ v →
      (∀ e ∈ q, IsPath b s e.1 e.2 ∧ e.1 ∈ v) →
      List.Pairwise (fun e1 e2 : Entry => e1.2.length ≤ e2.2.length) q →
      (∀ f, q.head? = some f → ∀ e ∈ q, e.2.length ≤ f.2.length + 1) →
      (∀ e ∈ q, ∀ pp, IsPath b s e.1 pp → e.2.length ≤ pp.length) →
      (∀ w ∈ v, (∀ pw, (w, pw) ∉ q) → ∀ m ∈ getValidMoves b w.1 w.2, m ∈ v) →
      endC ∉ v →
      q.length + ucount b v ≤ fuel →
      ∃ res, bfsAux b endC fuel q v = some res ∧ res.length ≤ pu.length := by
  intro fuel
  induction fuel with
  | zero =>
    intro q v hs h1 h2 h2b h3 h5 h6 h7
    exfalso
    have hq : q = [] := by
      cases q with
      | nil => rfl
      | cons a l => simp at h7
    subst hq
    have hcl : ∀ w ∈ v, ∀ m ∈ getValidMoves b w.1 w.2, m ∈ v :=
      fun w hw => h5 w hw fun pw => List.not_mem_nil (w, pw)
    exact h6 (reachable_in_visited b v hcl pu s endC hpu hs)
  | succ n ih =>
    intro q v hs h1 h2 h2b h3 h5 h6 h7
    cases q with
    | nil =>
      exfalso
      have hcl : ∀ w ∈ v, ∀ m ∈ getValidMoves b w.1 w.2, m ∈ v :=
        fun w hw => h5 w hw fun pw => List.not_mem_nil (w, pw)
      exact h6 (reachable_in_visited b v hcl pu s endC hpu hs)
    | cons cur rest =>
      cases hstep : stepMoves endC cur.2 (getValidMoves b cur.1.1 cur.1.2) v rest with
      | inl p0 =>
        refine ⟨p0, by rw [bfsAux, hstep], ?_⟩
        obtain ⟨hmem, hp0⟩ := stepMoves_inl hstep
        have hkey := path_longer_than_front b s (cur :: rest) v cur rfl hs h2 h3 h5
          pu endC h6 hpu
        rw [hp0]
        simp only [List.length_append, List.length_cons, List.length_nil]
        omega
      | inr pr =>
        obtain ⟨v2, q2⟩ := pr
        obtain ⟨news, hq2, hv2, hnews, hnodup, hendm, hmoves⟩ := stepMoves_inr h6 hstep
        have hcur := h1 cur (List.mem_cons_self cur rest)
        have hrest_le : ∀ e ∈ rest, e.2.length ≤ cur.2.length + 1 :=
          fun e he => h2b cur rfl e (List.mem_cons_of_mem cur he)
        have hfrontmin : ∀ e ∈ cur :: rest, cur.2.length ≤ e.2.length :=
          queue_front_min rfl h2
        have hnews_len : ∀ e ∈ news, e.2.length = cur.2.length + 1 := by
          intro e he
          rw [(hnews e he).1]
          simp
        have hnews_opt : ∀ e ∈ news, ∀ pp, IsPath b s e.1 pp → e.2.length ≤ pp.length := by
          intro e he pp hpp
          have hlow := path_longer_than_front b s (cur :: rest) v cur rfl hs h2 h3 h5
            pp e.1 (hnews e he).2.2.1 hpp
          rw [hnews_len e he]
          omega
        have hsubv : ∀ c, c ∈ v → c ∈ v2 := by
          intro c hc
          rw [hv2]
          exact List.mem_append_right _ hc
        have hs2 : s ∈ v2 := hsubv s hs
        have h1a : ∀ e ∈ q2, IsPath b s e.1 e.2 ∧ e.1 ∈ v2 := by
          intro e he
          rw [hq2] at he
          rcases List.mem_append.mp he with hr | hn
          · obtain ⟨hp, hcv⟩ := h1 e (List.mem_cons_of_mem cur hr)
            exact ⟨hp, hsubv _ hcv⟩
          · obtain ⟨hp1, hp2, -, -⟩ := hnews e hn
            refine ⟨?_, hmoves e.1 hp2⟩
            rw [hp1]
            exact IsPath.extend hcur.1 hp2
        have h2a : List.Pairwise (fun e1 e2 : Entry => e1.2.length ≤ e2.2.length) q2 := by
          rw [hq2]
          refine List.pairwise_append.mpr
            ⟨(List.pairwise_cons.mp h2).2, pairwise_length_const hnews_len, ?_⟩
          intro x hx y hy
          rw [hnews_len y hy]
          have := hrest_le x hx
          omega
        have h2c : ∀ f, q2.head? = some f → ∀ e ∈ q2, e.2.length ≤ f.2.length + 1 := by
          intro f hf e he
          rw [hq2] at hf he
          cases rest with
          | nil =>
            simp only [List.nil_append] at hf he
            have hfm : f ∈ news := List.mem_of_mem_head? (Option.mem_def.mpr hf)
            rw [hnews_len e he, hnews_len f hfm]
            omega
          | cons c0 rest2 =>
            have hfc : c0 = f := by
              simpa using hf
            have hc0 : cur.2.length ≤ f.2.length := by
              rw [← hfc]
              exact hfrontmin c0 (List.mem_cons_of_mem cur (List.mem_cons_self c0 rest2))
            rcases List.mem_append.mp he with hr | hn
            · have := hrest_le e hr
              omega
            · rw [hnews_len e hn]
              omega
        have h3a : ∀ e ∈ q2, ∀ pp, IsPath b s e.1 pp → e.2.length ≤ pp.length := by
          intro e he pp hpp
          rw [hq2] at he
          rcases List.mem_append.mp he with hr | hn
          · exact h3 e (List.mem_cons_of_mem cur hr) pp hpp
          · exact hnews_opt e hn pp hpp
        have h5a : ∀ w ∈ v2, (∀ pw, (w, pw) ∉ q2) → ∀ m ∈ getValidMoves b w.1 w.2, m ∈ v2 := by
          intro w hw hnq m hm
          rw [hv2] at hw
          rcases List.mem_append.mp hw with hnew | hold
          · exfalso
            obtain ⟨e, hee, hfst⟩ := List.mem_map.mp (List.mem_reverse.mp hnew)
            refine hnq e.2 ?_
            have hwe : (w, e.2) = e := by
              rw [← hfst]
            rw [hq2, hwe]
            exact List.mem_append_right _ hee
          · by_cases hwc : w = cur.1
            · subst hwc
              exact hmoves m hm
            · refine hsubv m (h5 w hold ?_ m hm)
              intro pw hpwq
              rcases List.mem_cons.mp hpwq with heq | hr
              · exact hwc (congrArg Prod.fst heq)
              · exact hnq pw (by rw [hq2]; exact List.mem_append_left _ hr)
        have h6a : endC ∉ v2 := by
          rw [hv2]
          intro hc
          rcases List.mem_append.mp hc with h1c | h2c2
          · obtain ⟨e, hee, hfst⟩ := List.mem_map.mp (List.mem_reverse.mp h1c)
            exact (hnews e hee).2.2.2 hfst
          · exact h6 h2c2
        have h7a : q2.length + ucount b v2 ≤ n := by
          have hcount := ucount_prepend b (news.map Prod.fst) v
            (fun c hc => by
              obtain ⟨e, hee, hfst⟩ := List.mem_map.mp hc
              rw [← hfst]
              exact mem_getValidMoves_boardKeys (hnews e hee).2.1)
            (fun c hc => by
              obtain ⟨e, hee, hfst⟩ := List.mem_map.mp hc
              rw [← hfst]
              exact (hnews e hee).2.2.1)
            hnodup
          rw [← hv2] at hcount
          have hq2len : q2.length = rest.length + news.length := by
            rw [hq2]
            simp
          have h7o : (cur :: rest).length + ucount b v ≤ n + 1 := h7
          simp only [List.length_cons] at h7o
          simp only [List.length_map] at hcount
          omega
        obtain ⟨res, hres, hlen⟩ := ih q2 v2 hs2 h1a h2a h2c h3a h5a h6a h7a
        exact ⟨res, by rw [bfsAux, hstep]; exact hres, hlen⟩

end LePhare

namespace LePhare

theorem isPath_ne_nil {b : Board} {s e : Coord} {p : List Coord} (h : IsPath b s e p) :
    1 ≤ p.length := by
  obtain ⟨hhd, -, -⟩ := h
  cases p with
  | nil => cases hhd
  | cons x rest => simp

theorem mem_getValidMoves_tile {b : Board} {q r : Int} {m : Coord}
    (h : m ∈ getValidMoves b q r) :
    ∃ t, getTile b m.1 m.2 = some t ∧
      (t.explorable && !t.blocked && t.type != DEEP_WATER) = true := by
  obtain ⟨d, hd, hf⟩ := List.mem_filterMap.mp h
  split at hf
  · cases hf
  · rename_i t hg
    split at hf
    · rename_i hcond
      have hm : m = (q + d.1, r + d.2) := (Option.some_inj.mp hf).symm
      subst hm
      exact ⟨t, hg, hcond⟩
    · cases hf

theorem no_path_to_unenterable (b : Board) (s e : Coord)
    (hse : s ≠ e)
    (hnm : ∀ q r : Int, e ∉ getValidMoves b q r) :
    ¬ ∃ p, IsPath b s e p := by
  rintro ⟨p, hp⟩
  rcases List.eq_nil_or_concat p with rfl | ⟨t, x, rfl⟩
  · exact absurd hp.1 (by simp)
  · rw [List.concat_eq_append] at hp
    obtain ⟨hhd, hlast, hch⟩ := hp
    have hx : x = e := by
      rw [List.getLast?_concat] at hlast
      exact Option.some_inj.mp hlast
    subst hx
    cases t with
    | nil =>
      simp only [List.nil_append, List.head?_cons, Option.some_inj] at hhd
      exact hse hhd.symm
    | cons y t2 =>
      cases hlt : (y :: t2).getLast? with
      | none => simp [List.getLast?_eq_none_iff] at hlt
      | some w =>
        obtain ⟨-, hmove⟩ := isChain_concat_decomp (y :: t2) x w hch hlt
        exact hnm w.1 w.2 hmove

/-- Claim C6 (confirmed): findPath performs breadth-first search over the
movement graph of getValidMoves. Any returned list is a movement-graph path
from start to end inclusive; when an unblocked geodesic exists (a movement
path whose step count equals the cube distance, as along an unblocked
straight line), some path with exactly that step count is returned; and
when end is unreachable in the movement graph, null is returned. -/
theorem c6_findPath_spec (b : Board) (q1 r1 q2 r2 : Int) :
    (∀ p, findPath b q1 r1 q2 r2 = some p → IsPath b (q1, r1) (q2, r2) p) ∧
    ((∃ p0, IsPath b (q1, r1) (q2, r2) p0 ∧ p0.length = getDistance q1 r1 q2 r2 + 1) →
      ∃ p, findPath b q1 r1 q2 r2 = some p ∧ p.length = getDistance q1 r1 q2 r2 + 1) ∧
    ((¬ ∃ p0, IsPath b (q1, r1) (q2, r2) p0) → findPath b q1 r1 q2 r2 = none) := by
  by_cases heq : (q1, r1) = ((q2, r2) : Coord)
  · have hfp : findPath b q1 r1 q2 r2 = some [(q1, r1)] := by
      simp [findPath, heq]
    have hq12 : q1 = q2 ∧ r1 = r2 := by
      obtain ⟨h1, h2⟩ := Prod.mk.inj heq
      exact ⟨h1, h2⟩
    have htriv : IsPath b (q1, r1) (q2, r2) [(q1, r1)] := by
      refine ⟨rfl, ?_, rfl⟩
      rw [hq12.1, hq12.2]
      rfl
    refine ⟨?_, ?_, ?_⟩
    · intro p hp
      rw [hfp] at hp
      rw [← Option.some_inj.mp hp]
      exact htriv
    · intro _
      refine ⟨[(q1, r1)], hfp, ?_⟩
      rw [hq12.1, hq12.2, getDistance_self]
      rfl
    · intro hnp
      exact absurd ⟨[(q1, r1)], htriv⟩ hnp
  · have hfp : findPath b q1 r1 q2 r2 =
        bfsAux b (q2, r2) (b.length + 1) [((q1, r1), [(q1, r1)])] [(q1, r1)] := by
      simp [findPath, heq]
    have hne : ((q2, r2) : Coord) ∉ [((q1, r1) : Coord)] := by
      intro hc
      simp only [List.mem_singleton] at hc
      exact heq hc.symm
    have hstart : IsPath b (q1, r1) (q1, r1) [(q1, r1)] := ⟨rfl, rfl, rfl⟩
    have hq0 : ∀ e ∈ [(((q1, r1) : Coord), [((q1, r1) : Coord)])], IsPath b (q1, r1) e.1 e.2 := by
      intro e he
      rw [List.mem_singleton] at he
      rw [he]
      exact hstart
    have hsound : ∀ p, findPath b q1 r1 q2 r2 = some p → IsPath b (q1, r1) (q2, r2) p := by
      intro p hp
      rw [hfp] at hp
      exact bfsAux_sound b (q1, r1) (q2, r2) (b.length + 1) _ _ p hq0 hne hp
    refine ⟨hsound, ?_, ?_⟩
    · rintro ⟨p0, hp0, hlen0⟩
      obtain ⟨res, hres, hreslen⟩ :=
        bfsAux_complete b (q1, r1) (q2, r2) p0 hp0 (b.length + 1)
          [((q1, r1), [(q1, r1)])] [(q1, r1)]
          (List.mem_singleton.mpr rfl)
          (by
            intro e he
            rw [List.mem_singleton] at he
            rw [he]
            exact ⟨hstart, List.mem_singleton.mpr rfl⟩)
          (List.pairwise_singleton _ _)
          (by
            intro f hf e he
            rw [List.mem_singleton] at he
            have hfe := (show (((q1, r1) : Coord), [((q1, r1) : Coord)]) = f by
              simpa using hf).symm
            rw [he, hfe]
            simp)
          (by
            intro e he pp hpp
            rw [List.mem_singleton] at he
            rw [he]
            exact isPath_ne_nil hpp)
          (by
            intro w hw hnq m hm
            rw [List.mem_singleton] at hw
            exfalso
            exact hnq [(q1, r1)] (by rw [hw]; exact List.mem_singleton.mpr rfl))
          hne
          (by
            have := ucount_le b [((q1, r1) : Coord)]
            simp only [List.length_singleton]
            omega)
      have hrespath : IsPath b (q1, r1) (q2, r2) res := by
        apply hsound
        rw [hfp]
        exact hres
      have hlow : getDistance q1 r1 q2 r2 + 1 ≤ res.length :=
        isPath_length b res (q1, r1) (q2, r2) hrespath
      refine ⟨res, by rw [hfp]; exact hres, ?_⟩
      rw [hlen0] at hreslen
      omega
    · intro hnp
      cases hres : findPath b q1 r1 q2 r2 with
      | none => rfl
      | some p => exact absurd ⟨p, hsound p hres⟩ hnp

/-- Tile at (0, 2) that is blocked, used to exhibit an unreachable target. -/
def blockedTile : Tile := { sampleTile 0 2 with blocked := true }

/-- Board with an unblocked west-east line (0,0), (1,0), (2,0) and a
blocked, hence unreachable, tile at (0,2). -/
def lineBoard : Board := [sampleTile 0 0, sampleTile 1 0, sampleTile 2 0, blockedTile]

theorem no_move_into_blocked : ∀ q r : Int, ((0, 2) : Coord) ∉ getValidMoves lineBoard q r := by
  intro q r hc
  obtain ⟨t, hg, hcond⟩ := mem_getValidMoves_tile hc
  have hg2 : getTile lineBoard 0 2 = some t := hg
  have hgb : getTile lineBoard 0 2 = some blockedTile := by decide
  have ht : t = blockedTile := Option.some_inj.mp (hg2.symm.trans hgb)
  subst ht
  exact absurd hcond (by decide)

theorem no_path_line02 : ¬ ∃ p, IsPath lineBoard (0, 0) (0, 2) p :=
  no_path_to_unenterable lineBoard (0, 0) (0, 2) (by decide) no_move_into_blocked

/-- Witness for C6: on the concrete line board, the geodesic hypothesis at
distance two yields a returned path of exactly three coordinates, and the
blocked tile at (0,2) is reported unreachable. -/
theorem c6_witness :
    (∃ p, findPath lineBoard 0 0 2 0 = some p ∧ p.length = getDistance 0 0 2 0 + 1) ∧
    findPath lineBoard 0 0 0 2 = none :=
  ⟨(c6_findPath_spec lineBoard 0 0 2 0).2.1
      ⟨[(0, 0), (1, 0), (2, 0)], by decide, by decide⟩,
    (c6_findPath_spec lineBoard 0 0 0 2).2.2 no_path_line02⟩

end LePhare

namespace LePhare

/-- Journal entry pushed by the ADD_JOURNAL case of StateManager.dispatch. -/
structure JournalEntry where
  id : String
  text : String
  act : Int
  turn : Int
  timestamp : Int
deriving DecidableEq

/-- NPC record kept in state.npcs; fields are optional because UPDATE_NPC
merges partial records and may create a record with missing fields. -/
structure Npc where
  arrived : Option Int
  trust : Option Int
  alive : Option Bool
  revealed : Option (List String)
deriving DecidableEq

/-- Resource counters of the state: oil, food, supplies. -/
structure Resources where
  oil : Int
  food : Int
  supplies : Int
deriving DecidableEq

/-- Player substate: position, sanity, inventory, journal, flags. -/
structure PlayerState where
  position : Coord
  sanity : Int
  inventory : List String
  journal : List JournalEntry
  flags : List (String × Bool)
deriving DecidableEq

/-- Board substate of the store: the explored-coordinate Set in insertion
order (JS keys "q,r" modelled as coordinate pairs) and the tileStates
object, which no dispatch writes. -/
structure BoardState where
  explored : List Coord
deriving DecidableEq

/-- Events substate: completed event ids and the active event id or null. -/
structure EventsState where
  completed : List String
  active : Option String
deriving DecidableEq

/-- GameState of StateManager.js. gameOverReason is none while the JS
object lacks the property. -/
structure GameState where
  act : Int
  phase : String
  turn : Int
  movesRemaining : Int
  player : PlayerState
  resources : Resources
  npcs : List (String × Npc)
  board : BoardState
  events : EventsState
  lighthouseLit : List Bool
  gameStarted : Bool
  gameOver : Bool
  gameOverReason : Option String
deriving DecidableEq

/-- StateManager._createInitialState. -/
def initialState : GameState :=
  { act := 1, phase := "dawn", turn := 0, movesRemaining := 5,
    player := { position := (0, 0), sanity := 100, inventory := [],
                journal := [], flags := [] },
    resources := { oil := 12, food := 8, supplies := 5 },
    npcs := [],
    board := { explored := [(0, 0)] },
    events := { completed := [], active := none },
    lighthouseLit := [],
    gameStarted := false, gameOver := false, gameOverReason := none }

/-- Dispatched actions. The nine typed constructors carry the payloads of
the nine recognized action types; unknown carries the type string of any
action whose type is none of the nine recognized names. The timestamp of
addJournal stands for the Date.now() read at dispatch time. -/
inductive GAction where
  | move (q r : Int)
  | updateResource (resource : String) (amount : Int)
  | setPhase (phase : String) (movesRemaining : Option Int)
  | setSanity (sanity : Int)
  | addJournal (id text : String) (timestamp : Int)
  | setFlag (flag : String) (value : Option Bool)
  | updateNpc (id : String) (data : Npc)
  | nextAct
  | setGameOver (reason : Option String)
  | unknown (type : String)
deriving DecidableEq

/-- Type string of an action, as matched by the switch in dispatch. -/
def actionType : GAction → String
  | .move _ _ => "MOVE"
  | .updateResource _ _ => "UPDATE_RESOURCE"
  | .setPhase _ _ => "SET_PHASE"
  | .setSanity _ => "SET_SANITY"
  | .addJournal _ _ _ => "ADD_JOURNAL"
  | .setFlag _ _ => "SET_FLAG"
  | .updateNpc _ _ => "UPDATE_NPC"
  | .nextAct => "NEXT_ACT"
  | .setGameOver _ => "SET_GAME_OVER"
  | .unknown t => t

/-- The nine recognized transition names of StateManager.dispatch. -/
def recognizedTypes : List String :=
  ["MOVE", "UPDATE_RESOURCE", "SET_PHASE", "SET_SANITY", "ADD_JOURNAL",
   "SET_FLAG", "UPDATE_NPC", "NEXT_ACT", "SET_GAME_OVER"]

/-- Set.add on the explored keys: append if absent, unchanged if present. -/
def addExplored (l : List Coord) (c : Coord) : List Coord :=
  if c ∈ l then l else l ++ [c]

/-- JS object property assignment on a string-keyed record: overwrite in
place when the key exists, append otherwise. -/
def upsert {α : Type} (l : List (String × α)) (k : String) (v : α) : List (String × α) :=
  if l.any (fun kv => kv.1 == k) then
    l.map fun kv => if kv.1 == k then (k, v) else kv
  else l ++ [(k, v)]

/-- Spread merge of a partial NPC record into an existing one, matching
the JS object spread in the UPDATE_NPC case. -/
def mergeNpc (old : Npc) (data : Npc) : Npc :=
  { arrived := data.arrived.orElse fun _ => old.arrived,
    trust := data.trust.orElse fun _ => old.trust,
    alive := data.alive.orElse fun _ => old.alive,
    revealed := data.revealed.orElse fun _ => old.revealed }

/-- Empty NPC record, the "{}" base when UPDATE_NPC creates a record. -/
def emptyNpc : Npc := { arrived := none, trust := none, alive := none, revealed := none }

/-- Lookup in a string-keyed object. -/
def lookupKey {α : Type} (l : List (String × α)) (k : String) : Option α :=
  (l.find? fun kv => kv.1 == k).map fun kv => kv.2

/-- StateManager.dispatch: the switch over the nine recognized action
types; an unknown type logs a warning and leaves the state unchanged. -/
def dispatch (s : GameState) (a : GAction) : GameState :=
  match a with
  | .move q r =>
    { s with
      player := { s.player with position := (q, r) },
      board := { s.board with explored := addExplored s.board.explored (q, r) },
      movesRemaining := max 0 (s.movesRemaining - 1) }
  | .updateResource res amt =>
    if res = "oil" then
      { s with resources := { s.resources with oil := max 0 (s.resources.oil + amt) } }
    else if res = "food" then
      { s with resources := { s.resources with food := max 0 (s.resources.food + amt) } }
    else if res = "supplies" then
      { s with resources := { s.resources with supplies := max 0 (s.resources.supplies + amt) } }
    else s
  | .setPhase ph mr =>
    { s with phase := ph, movesRemaining := mr.getD s.movesRemaining }
  | .setSanity v =>
    { s with player := { s.player with sanity := max 0 (min 100 v) } }
  | .addJournal id text ts =>
    { s with player := { s.player with journal :=
        s.player.journal ++ [{ id := id, text := text, act := s.act, turn := s.turn,
                               timestamp := ts }] } }
  | .setFlag flag v =>
    { s with player := { s.player with flags := upsert s.player.flags flag (v.getD true) } }
  | .updateNpc id data =>
    { s with npcs := upsert s.npcs id (mergeNpc ((lookupKey s.npcs id).getD emptyNpc) data) }
  | .nextAct =>
    { s with act := min 5 (s.act + 1), turn := 0, phase := "dawn" }
  | .setGameOver reason =>
    { s with gameOver := true,
             gameOverReason :=
               match reason with
               | some rr => if rr = "" then s.gameOverReason else some rr
               | none => s.gameOverReason }
  | .unknown _ => s

/-- States reachable from the initial state by dispatching. -/
inductive Reachable : GameState → Prop where
  | init : Reachable initialState
  | step {s : GameState} (a : GAction) : Reachable s → Reachable (dispatch s a)

end LePhare

namespace LePhare

/-- Counterexample to C1 as stated: from the initial state, whose oil
counter 12 lies within [0, 20], one UPDATE_RESOURCE dispatch with delta
+20 drives oil to 32, beyond the documented maximum of 20; dispatch has no
upper clamp. -/
theorem c1_counterexample :
    (0 ≤ initialState.resources.oil ∧ initialState.resources.oil ≤ 20) ∧
    (dispatch initialState (GAction.updateResource "oil" 20)).resources.oil = 32 ∧
    ¬ (dispatch initialState (GAction.updateResource "oil" 20)).resources.oil ≤ 20 := by
  decide

theorem updateResource_oil_nonneg (s : GameState) (res : String) (amt : Int)
    (h : 0 ≤ s.resources.oil) :
    0 ≤ (dispatch s (.updateResource res amt)).resources.oil := by
  simp only [dispatch]
  split_ifs <;> first | exact h | exact le_max_left 0 _

theorem updateResource_food_nonneg (s : GameState) (res : String) (amt : Int)
    (h : 0 ≤ s.resources.food) :
    0 ≤ (dispatch s (.updateResource res amt)).resources.food := by
  simp only [dispatch]
  split_ifs <;> first | exact h | exact le_max_left 0 _

/-- Fold a list of UPDATE_RESOURCE dispatches over the store. -/
def applyResourceUpdates (s : GameState) (ds : List (String × Int)) : GameState :=
  ds.foldl (fun st d => dispatch st (.updateResource d.1 d.2)) s

/-- Claim C1 (corrected): the UPDATE_RESOURCE case applies
max(0, current + delta) only. For every sequence of AdjustResource
dispatches from a state with nonnegative counters, oil and food stay at or
above 0; there is no clamp at the resource maximum (oil 20, food 15), so
the upper bound of the claim fails. -/
theorem c1_resource_lower_clamp (s : GameState) (ds : List (String × Int))
    (hoil : 0 ≤ s.resources.oil) (hfood : 0 ≤ s.resources.food) :
    0 ≤ (applyResourceUpdates s ds).resources.oil ∧
      0 ≤ (applyResourceUpdates s ds).resources.food := by
  induction ds generalizing s with
  | nil => exact ⟨hoil, hfood⟩
  | cons d rest ih =>
    exact ih (dispatch s (.updateResource d.1 d.2))
      (updateResource_oil_nonneg s d.1 d.2 hoil)
      (updateResource_food_nonneg s d.1 d.2 hfood)

/-- Witness for C1 (corrected): the amended theorem applied to the initial
state and one large negative oil delta. -/
theorem c1_witness :
    0 ≤ (applyResourceUpdates initialState [("oil", -100)]).resources.oil ∧
      0 ≤ (applyResourceUpdates initialState [("oil", -100)]).resources.food :=
  c1_resource_lower_clamp initialState [("oil", -100)] (by decide) (by decide)

/-- Claim C5 (confirmed): dispatching any action whose type is none of the
nine recognized transition names only logs a warning and leaves the entire
GameState unchanged; no mutation is applied. -/
theorem c5_unknown_action_unchanged (s : GameState) (a : GAction)
    (h : actionType a ∉ recognizedTypes) : dispatch s a = s := by
  cases a <;> first
    | rfl
    | simp [actionType, recognizedTypes] at h

/-- Witness for C5: the SET_LIGHTHOUSE_NIGHT action that TimeManager
dispatches is not a recognized type, and dispatching it from the initial
state changes nothing. -/
theorem c5_witness :
    dispatch initialState (GAction.unknown "SET_LIGHTHOUSE_NIGHT") = initialState :=
  c5_unknown_action_unchanged initialState (GAction.unknown "SET_LIGHTHOUSE_NIGHT")
    (by decide)

/-- Claim C9 (confirmed): a MOVE whose payload equals the player's current
position is applied in full; the store checks no
target-differs-from-position precondition: the position is set, the
coordinate is added to the explored set, and movesRemaining is decremented
with floor 0. -/
theorem c9_move_no_precondition (s : GameState) (q r : Int)
    (_h : s.player.position = (q, r)) :
    (dispatch s (.move q r)).player.position = (q, r) ∧
    (dispatch s (.move q r)).board.explored = addExplored s.board.explored (q, r) ∧
    (dispatch s (.move q r)).movesRemaining = max 0 (s.movesRemaining - 1) :=
  ⟨rfl, rfl, rfl⟩

/-- Witness for C9: moving onto the player's own starting tile (0,0) from
the initial state. -/
theorem c9_witness :
    (dispatch initialState (.move 0 0)).player.position = (0, 0) ∧
    (dispatch initialState (.move 0 0)).board.explored =
      addExplored initialState.board.explored (0, 0) ∧
    (dispatch initialState (.move 0 0)).movesRemaining =
      max 0 (initialState.movesRemaining - 1) :=
  c9_move_no_precondition initialState 0 0 rfl

end LePhare

namespace LePhare

/-- Sanity penalty for a deliberately dark night, ResourceManager. -/
def SANITY_PENALTY_DARK_NIGHT : Int := 15

/-- Sanity penalty when food runs short. -/
def SANITY_PENALTY_HUNGER : Int := 10

/-- Extra dark-night penalty from act 3 on. -/
def SANITY_PENALTY_DARK_LATE : Int := 5

/-- Oil the lighthouse burns per night, indexed by act - 1. -/
def OIL_COST_PER_NIGHT : List Int := [3, 3, 4, 4, 5]

/-- ResourceManager.getOilCostTonight: OIL_COST_PER_NIGHT[min(act-1, 4)]. -/
def getOilCostTonight (act : Int) : Int :=
  OIL_COST_PER_NIGHT.getD (min (act - 1) 4).toNat 0

/-- ResourceManager.getFoodNeeded: living NPCs plus one for the player;
an NPC is counted when its alive field is present and true. -/
def getFoodNeeded (s : GameState) : Int :=
  ((s.npcs.filter fun kv => kv.2.alive = some true).length : Int) + 1

/-- Structured result of ResourceManager.applyNightConsumption. -/
structure NightResult where
  oilUsed : Int
  oilShortfall : Int
  foodUsed : Int
  foodShortfall : Int
  sanityPenalty : Int
deriving DecidableEq

/-- ResourceManager._applySanityPenalty: no-op for amount <= 0, otherwise
one SET_SANITY dispatch of current sanity minus the amount. -/
def applySanityPenalty (s : GameState) (amount : Int) : GameState :=
  if amount ≤ 0 then s else dispatch s (.setSanity (s.player.sanity - amount))

/-- ResourceManager.applyNightConsumption. The reduced penalty of the
failed-illumination branch is Math.round(SANITY_PENALTY_DARK_NIGHT / 2),
which for the odd constant 15 equals (15 + 1) / 2 = 8. -/
def applyNightConsumption (s : GameState) (lighthouseLit : Bool) : GameState × NightResult :=
  let oilCost := getOilCostTonight s.act
  let foodCost := getFoodNeeded s
  let step1 : GameState × NightResult :=
    if lighthouseLit then
      if s.resources.oil ≥ oilCost then
        (dispatch s (.updateResource "oil" (-oilCost)),
         { oilUsed := oilCost, oilShortfall := 0, foodUsed := 0, foodShortfall := 0,
           sanityPenalty := 0 })
      else
        let pen := (SANITY_PENALTY_DARK_NIGHT + 1) / 2 +
          (if s.act ≥ 3 then SANITY_PENALTY_DARK_LATE else 0)
        (applySanityPenalty (dispatch s (.updateResource "oil" (-s.resources.oil))) pen,
         { oilUsed := 0, oilShortfall := oilCost - s.resources.oil, foodUsed := 0,
           foodShortfall := 0, sanityPenalty := pen })
    else
      let pen := SANITY_PENALTY_DARK_NIGHT +
        (if s.act ≥ 3 then SANITY_PENALTY_DARK_LATE else 0)
      (applySanityPenalty s pen,
       { oilUsed := 0, oilShortfall := 0, foodUsed := 0, foodShortfall := 0,
         sanityPenalty := pen })
  let s1 := step1.1
  let r1 := step1.2
  let currentFood := s1.resources.food
  if currentFood ≥ foodCost then
    (dispatch s1 (.updateResource "food" (-foodCost)), { r1 with foodUsed := foodCost })
  else
    (applySanityPenalty (dispatch s1 (.updateResource "food" (-currentFood)))
        SANITY_PENALTY_HUNGER,
     { r1 with foodShortfall := foodCost - currentFood,
               sanityPenalty := r1.sanityPenalty + SANITY_PENALTY_HUNGER })

/-- ResourceManager.checkGameOver: sanity at or below zero loses the game
with reason sanity. -/
def checkGameOver (s : GameState) : Option String :=
  if s.player.sanity ≤ 0 then some "sanity" else none

/-- Scenario B state: act 1, 2 oil, ample food, no NPCs. -/
def scenarioB : GameState :=
  { initialState with resources := { oil := 2, food := 8, supplies := 5 } }

/-- Counterexample to C3 as stated: in scenario B the structured result
reports oilUsed = 0, not 2, even though both remaining oil units are
deducted; shortfall and penalty match the claim. -/
theorem c3_counterexample :
    (applyNightConsumption scenarioB true).2.oilUsed = 0 ∧
    (applyNightConsumption scenarioB true).2.oilUsed ≠ 2 ∧
    (applyNightConsumption scenarioB true).2.oilShortfall = 1 ∧
    (applyNightConsumption scenarioB true).1.resources.oil = 0 ∧
    (applyNightConsumption scenarioB true).2.sanityPenalty = 8 := by
  decide

end LePhare

namespace LePhare

theorem applySanityPenalty_resources (s : GameState) (a : Int) :
    (applySanityPenalty s a).resources = s.resources := by
  unfold applySanityPenalty
  split <;> rfl

theorem updateResource_oil_food (s : GameState) (a : Int) :
    (dispatch s (.updateResource "oil" a)).resources.food = s.resources.food := rfl

theorem updateResource_oil_oil (s : GameState) (a : Int) :
    (dispatch s (.updateResource "oil" a)).resources.oil = max 0 (s.resources.oil + a) := rfl

theorem updateResource_food_oil (s : GameState) (a : Int) :
    (dispatch s (.updateResource "food" a)).resources.oil = s.resources.oil := rfl

/-- Claim C3 (corrected): with act 1, oil 2 and nightly fuel cost 3,
applyNightConsumption with the beacon lit deducts the remaining 2 oil,
reports oilShortfall = 1 and a sanity penalty of round(15/2) = 8 with no
late-game surcharge since act < 3 — but the structured result reports
oilUsed = 0, not 2: the shortfall branch never sets oilUsed. The food
hypothesis keeps the hunger penalty out of the reported total. -/
theorem c3_night_shortfall (s : GameState)
    (hact : s.act = 1) (hoil : s.resources.oil = 2)
    (hfood : getFoodNeeded s ≤ s.resources.food) :
    (applyNightConsumption s true).1.resources.oil = 0 ∧
    (applyNightConsumption s true).2.oilShortfall = 1 ∧
    (applyNightConsumption s true).2.oilUsed = 0 ∧
    (applyNightConsumption s true).2.sanityPenalty = 8 := by
  have hcost : getOilCostTonight s.act = 3 := by
    rw [hact]
    rfl
  have hnot : ¬ (s.resources.oil ≥ getOilCostTonight s.act) := by
    rw [hcost, hoil]
    decide
  have hlate : ¬ (s.act ≥ 3) := by
    rw [hact]
    decide
  have hres2 : (applySanityPenalty
      (dispatch s (GAction.updateResource "oil" (-s.resources.oil)))
      ((SANITY_PENALTY_DARK_NIGHT + 1) / 2 + 0)).resources =
      (dispatch s (GAction.updateResource "oil" (-s.resources.oil))).resources :=
    applySanityPenalty_resources _ _
  have hfoodcond : (applySanityPenalty
      (dispatch s (GAction.updateResource "oil" (-s.resources.oil)))
      ((SANITY_PENALTY_DARK_NIGHT + 1) / 2 + 0)).resources.food ≥ getFoodNeeded s := by
    rw [hres2, updateResource_oil_food]
    exact hfood
  simp only [applyNightConsumption, if_neg hnot, if_neg hlate, if_pos rfl, if_true,
    if_pos hfoodcond]
  refine ⟨?_, ?_, trivial, by decide⟩
  · show (dispatch (applySanityPenalty
        (dispatch s (GAction.updateResource "oil" (-s.resources.oil)))
        ((SANITY_PENALTY_DARK_NIGHT + 1) / 2 + 0))
        (GAction.updateResource "food" (-getFoodNeeded s))).resources.oil = 0
    rw [updateResource_food_oil, hres2, updateResource_oil_oil, hoil]
    decide
  · show getOilCostTonight s.act - s.resources.oil = 1
    rw [hcost, hoil]
    decide

end LePhare

namespace LePhare

/-- Witness for C3 (corrected): the amended theorem applied at the
concrete scenario B state. -/
theorem c3_witness :
    (applyNightConsumption scenarioB true).1.resources.oil = 0 ∧
    (applyNightConsumption scenarioB true).2.oilShortfall = 1 ∧
    (applyNightConsumption scenarioB true).2.oilUsed = 0 ∧
    (applyNightConsumption scenarioB true).2.sanityPenalty = 8 :=
  c3_night_shortfall scenarioB rfl rfl (by decide)

/-- Moves available per act, TimeManager.MOVES_PER_ACT. -/
def MOVES_PER_ACT : List Int := [6, 6, 7, 7, 8]

/-- TimeManager.getMovesForAct: MOVES_PER_ACT[min(act-1, 4)]. -/
def getMovesForAct (act : Int) : Int :=
  MOVES_PER_ACT.getD (min (act - 1) 4).toNat 0

/-- Outcome of TimeManager._transitionToDawn: either the terminal complete
signal (no NEXT_ACT dispatched) or the state after dispatching NEXT_ACT. -/
inductive DawnResult where
  | complete
  | advance (s2 : GameState)
deriving DecidableEq

/-- TimeManager._transitionToDawn: at act 5 or later the game-over
callback fires with reason complete and NEXT_ACT is never dispatched;
otherwise NEXT_ACT advances the act. -/
def transitionToDawn (s : GameState) : DawnResult :=
  if s.act ≥ 5 then .complete
  else .advance (dispatch s .nextAct)

/-- Outcome of the night flow in TimeManager._transitionToNight followed
by the wait-for-dawn dialogue: a fatal game over after consumption, the
terminal complete outcome, or a dawn that advances to the next act. -/
inductive NightOutcome where
  | gameOver (s2 : GameState) (reason : String)
  | dawnComplete
  | dawnAdvance (s2 : GameState)
deriving DecidableEq

/-- TimeManager._transitionToNight composed with the night dialogue and
_transitionToDawn: set phase night, apply nightly consumption, end the
game if checkGameOver fires, otherwise run the dawn transition. -/
def transitionToNight (s : GameState) (lighthouseLit : Bool) : NightOutcome :=
  let s0 := dispatch s (.setPhase "night" (some 0))
  let res := applyNightConsumption s0 lighthouseLit
  match checkGameOver res.1 with
  | some reason => .gameOver (dispatch res.1 (.setGameOver (some reason))) reason
  | none =>
    match transitionToDawn res.1 with
    | .complete => .dawnComplete
    | .advance s2 => .dawnAdvance s2

theorem dispatch_updateResource_act (s : GameState) (r : String) (a : Int) :
    (dispatch s (.updateResource r a)).act = s.act := by
  simp only [dispatch]
  split_ifs <;> rfl

theorem applySanityPenalty_act (s : GameState) (a : Int) :
    (applySanityPenalty s a).act = s.act := by
  unfold applySanityPenalty
  split <;> rfl

theorem applyNightConsumption_act (s : GameState) (lit : Bool) :
    (applyNightConsumption s lit).1.act = s.act := by
  simp only [applyNightConsumption]
  split_ifs <;>
    simp only [dispatch_updateResource_act, applySanityPenalty_act]

/-- Claim C7 (confirmed): when the act counter is at 5 or more,
_transitionToDawn yields the terminal complete outcome and never
dispatches NEXT_ACT, and completing the night phase can only end in a
fatal game over or the complete outcome, never a sixth dawn. -/
theorem c7_act5_terminal (s : GameState) (h : 5 ≤ s.act) :
    transitionToDawn s = DawnResult.complete ∧
    ∀ (lit : Bool) (s2 : GameState),
      transitionToNight s lit ≠ NightOutcome.dawnAdvance s2 := by
  constructor
  · unfold transitionToDawn
    rw [if_pos h]
  · intro lit s2
    simp only [transitionToNight]
    have hact : (applyNightConsumption (dispatch s (.setPhase "night" (some 0))) lit).1.act
        = s.act := by
      rw [applyNightConsumption_act]
      rfl
    cases hchk : checkGameOver
        (applyNightConsumption (dispatch s (.setPhase "night" (some 0))) lit).1 with
    | some reason =>
      simp only [hchk]
      intro hcon
      cases hcon
    | none =>
      simp only [hchk]
      have hdone : transitionToDawn
          (applyNightConsumption (dispatch s (.setPhase "night" (some 0))) lit).1 =
          DawnResult.complete := by
        unfold transitionToDawn
        rw [if_pos (by rw [hact]; exact h)]
      rw [hdone]
      intro hcon
      cases hcon

/-- State with the act counter at five. -/
def act5State : GameState := { initialState with act := 5 }

/-- Witness for C7: at act 5 the dawn transition completes and the night
flow never advances to a sixth dawn. -/
theorem c7_witness :
    transitionToDawn act5State = DawnResult.complete ∧
    transitionToNight act5State true ≠ NightOutcome.dawnAdvance initialState :=
  ⟨(c7_act5_terminal act5State (by decide)).1,
   (c7_act5_terminal act5State (by decide)).2 true initialState⟩

end LePhare

namespace LePhare

/-- JSON-like value tree of the serialized state. The set constructor
stands for a live JS Set (its elements in insertion order); JSON text
produced by JSON.stringify and re-read by JSON.parse is modelled by the
tree itself. -/
inductive JVal where
  | null
  | bool (b : Bool)
  | num (n : Int)
  | str (s : String)
  | arr (elems : List JVal)
  | obj (fields : List (String × JVal))
  | set (elems : List JVal)

mutual

/-- Replacer of StateManager.serialize: every Set in the tree becomes the
tagged object with __type Set and its values array. -/
def tagSets : JVal → JVal
  | .null => .null
  | .bool b => .bool b
  | .num n => .num n
  | .str t => .str t
  | .arr xs => .arr (tagSetsList xs)
  | .obj fs => .obj (tagSetsFields fs)
  | .set xs => .obj [("__type", .str "Set"), ("values", .arr (tagSetsList xs))]

def tagSetsList : List JVal → List JVal
  | [] => []
  | x :: xs => tagSets x :: tagSetsList xs

def tagSetsFields : List (String × JVal) → List (String × JVal)
  | [] => []
  | (k, v) :: fs => (k, tagSets v) :: tagSetsFields fs

end

/-- Property lookup on a parsed JSON object. -/
def lookupField (fs : List (String × JVal)) (k : String) : Option JVal :=
  (fs.find? fun kv => kv.1 == k).map fun kv => kv.2

/-- String content of an optional value, when it is a string node. -/
def strVal : Option JVal → Option String
  | some (.str t) => some t
  | _ => none

/-- Element list of an optional value, when it is an array node. -/
def arrVal : Option JVal → Option (List JVal)
  | some (.arr vs) => some vs
  | _ => none

/-- The check obj[key].__type === the string Set together with
Array.isArray(obj[key].values) in StateManager._restoreSets; returns the
values array of a tagged object. -/
def taggedValues (v : JVal) : Option (List JVal) :=
  match v with
  | .obj fs =>
    if strVal (lookupField fs "__type") = some "Set" then
      arrVal (lookupField fs "values")
    else none
  | _ => none

mutual

/-- Child handling of StateManager._restoreSets: a tagged object becomes
a Set of its values array, verbatim and without recursing into it; any
other object or array is walked recursively; scalars are untouched. -/
def restoreChild : JVal → JVal
  | .obj fs =>
    match taggedValues (.obj fs) with
    | some vs => .set vs
    | none => .obj (restoreFields fs)
  | .arr xs => .arr (restoreList xs)
  | v => v

def restoreList : List JVal → List JVal
  | [] => []
  | x :: xs => restoreChild x :: restoreList xs

def restoreFields : List (String × JVal) → List (String × JVal)
  | [] => []
  | (k, v) :: fs => (k, restoreChild v) :: restoreFields fs

end

/-- StateManager._restoreSets applied to the parse result: the root node
itself is never converted, only its children are processed. -/
def restoreSets : JVal → JVal
  | .obj fs => .obj (restoreFields fs)
  | .arr xs => .arr (restoreList xs)
  | v => v

mutual

/-- True when no Set node occurs in the tree. -/
def setFree : JVal → Bool
  | .null => true
  | .bool _ => true
  | .num _ => true
  | .str _ => true
  | .arr xs => setFreeList xs
  | .obj fs => setFreeFields fs
  | .set _ => false

def setFreeList : List JVal → Bool
  | [] => true
  | x :: xs => setFree x && setFreeList xs

def setFreeFields : List (String × JVal) → Bool
  | [] => true
  | (_, v) :: fs => setFree v && setFreeFields fs

end

mutual

/-- Trees on which tagging and restoring are mutually inverse: no object
already looks like a tagged Set, and Set elements contain no nested Set. -/
def good : JVal → Bool
  | .null => true
  | .bool _ => true
  | .num _ => true
  | .str _ => true
  | .arr xs => goodList xs
  | .obj fs => (taggedValues (.obj fs)).isNone && goodFields fs
  | .set xs => setFreeList xs

def goodList : List JVal → Bool
  | [] => true
  | x :: xs => good x && goodList xs

def goodFields : List (String × JVal) → Bool
  | [] => true
  | (_, v) :: fs => good v && goodFields fs

end

end LePhare

namespace LePhare

theorem lookupField_tagSetsFields (fs : List (String × JVal)) (k : String) :
    lookupField (tagSetsFields fs) k = (lookupField fs k).map tagSets := by
  induction fs with
  | nil => rfl
  | cons kv rest ih =>
    obtain ⟨k2, v⟩ := kv
    by_cases hk : (k2 == k) = true
    · simp only [tagSetsFields, lookupField, List.find?_cons, hk]
      rfl
    · have hk2 : (k2 == k) = false := by simpa using hk
      simp only [tagSetsFields, lookupField, List.find?_cons, hk2] at ih ⊢
      exact ih

theorem tagSets_eq_str {v : JVal} {t : String} (h : tagSets v = .str t) : v = .str t := by
  cases v <;> simp [tagSets] at h
  rw [h]

theorem tagSets_eq_arr {v : JVal} {vs : List JVal} (h : tagSets v = .arr vs) :
    ∃ us, v = .arr us ∧ vs = tagSetsList us := by
  cases v <;> simp [tagSets] at h
  · rename_i xs
    exact ⟨xs, rfl, h.symm⟩

theorem strVal_map_tagSets (o : Option JVal) :
    strVal (o.map tagSets) = strVal o := by
  cases o with
  | none => rfl
  | some v => cases v <;> rfl

theorem arrVal_map_tagSets (o : Option JVal) :
    arrVal (o.map tagSets) = (arrVal o).map tagSetsList := by
  cases o with
  | none => rfl
  | some v => cases v <;> rfl

theorem taggedValues_tagSetsFields {fs : List (String × JVal)}
    (h : taggedValues (.obj fs) = none) :
    taggedValues (.obj (tagSetsFields fs)) = none := by
  unfold taggedValues at h ⊢
  dsimp only at h ⊢
  rw [lookupField_tagSetsFields, lookupField_tagSetsFields, strVal_map_tagSets,
    arrVal_map_tagSets]
  by_cases hc : strVal (lookupField fs "__type") = some "Set"
  · rw [if_pos hc] at h ⊢
    rw [h]
    rfl
  · rw [if_neg hc]

mutual

theorem tagSets_of_setFree : ∀ v : JVal, setFree v = true → tagSets v = v
  | .null, _ => rfl
  | .bool _, _ => rfl
  | .num _, _ => rfl
  | .str _, _ => rfl
  | .arr xs, h => by
    rw [tagSets, tagSetsList_of_setFree xs (by simpa [setFree] using h)]
  | .obj fs, h => by
    rw [tagSets, tagSetsFields_of_setFree fs (by simpa [setFree] using h)]
  | .set xs, h => by
    simp [setFree] at h

theorem tagSetsList_of_setFree : ∀ xs : List JVal, setFreeList xs = true → tagSetsList xs = xs
  | [], _ => rfl
  | x :: xs, h => by
    obtain ⟨h1, h2⟩ : setFree x = true ∧ setFreeList xs = true := by
      simpa [setFreeList, Bool.and_eq_true] using h
    rw [tagSetsList, tagSets_of_setFree x h1, tagSetsList_of_setFree xs h2]

theorem tagSetsFields_of_setFree :
    ∀ fs : List (String × JVal), setFreeFields fs = true → tagSetsFields fs = fs
  | [], _ => rfl
  | (k, v) :: fs, h => by
    obtain ⟨h1, h2⟩ : setFree v = true ∧ setFreeFields fs = true := by
      simpa [setFreeFields, Bool.and_eq_true] using h
    rw [tagSetsFields, tagSets_of_setFree v h1, tagSetsFields_of_setFree fs h2]

end

mutual

theorem restoreChild_tagSets : ∀ v : JVal, good v = true → restoreChild (tagSets v) = v
  | .null, _ => rfl
  | .bool _, _ => rfl
  | .num _, _ => rfl
  | .str _, _ => rfl
  | .arr xs, h => by
    rw [tagSets, restoreChild, restoreList_tagSetsList xs (by simpa [good] using h)]
  | .obj fs, h => by
    obtain ⟨h1, h2⟩ : (taggedValues (.obj fs)).isNone = true ∧ goodFields fs = true := by
      simpa [good, Bool.and_eq_true] using h
    have htag : taggedValues (.obj fs) = none := Option.isNone_iff_eq_none.mp h1
    have htag2 : taggedValues (.obj (tagSetsFields fs)) = none :=
      taggedValues_tagSetsFields htag
    have hrc : restoreChild (.obj (tagSetsFields fs)) =
        .obj (restoreFields (tagSetsFields fs)) := by
      rw [restoreChild, htag2]
    rw [tagSets, hrc, restoreFields_tagSetsFields fs h2]
  | .set xs, h => by
    have hfree : setFreeList xs = true := by simpa [good] using h
    have hrc : restoreChild (tagSets (.set xs)) = .set (tagSetsList xs) := rfl
    rw [hrc, tagSetsList_of_setFree xs hfree]

theorem restoreList_tagSetsList :
    ∀ xs : List JVal, goodList xs = true → restoreList (tagSetsList xs) = xs
  | [], _ => rfl
  | x :: xs, h => by
    obtain ⟨h1, h2⟩ : good x = true ∧ goodList xs = true := by
      simpa [goodList, Bool.and_eq_true] using h
    rw [tagSetsList, restoreList, restoreChild_tagSets x h1, restoreList_tagSetsList xs h2]

theorem restoreFields_tagSetsFields :
    ∀ fs : List (String × JVal), goodFields fs = true → restoreFields (tagSetsFields fs) = fs
  | [], _ => rfl
  | (k, v) :: fs, h => by
    obtain ⟨h1, h2⟩ : good v = true ∧ goodFields fs = true := by
      simpa [goodFields, Bool.and_eq_true] using h
    rw [tagSetsFields, restoreFields, restoreChild_tagSets v h1,
      restoreFields_tagSetsFields fs h2]

end

end LePhare

namespace LePhare

/-- Key string "q,r" of a coordinate, as stored in the explored Set. -/
def toKey (q r : Int) : String := toString q ++ "," ++ toString r

/-- Tree of a journal entry as built by ADD_JOURNAL. -/
def encodeJournal (e : JournalEntry) : JVal :=
  .obj [("id", .str e.id), ("text", .str e.text), ("act", .num e.act),
        ("turn", .num e.turn), ("timestamp", .num e.timestamp)]

/-- Field present only when the optional value is present, matching a JS
object that lacks the property. -/
def optField (k : String) (v : Option JVal) : List (String × JVal) :=
  match v with
  | some j => [(k, j)]
  | none => []

/-- Tree of an NPC record; absent fields yield no property. -/
def encodeNpc (n : Npc) : JVal :=
  .obj (optField "arrived" (n.arrived.map fun x => .num x) ++
        optField "trust" (n.trust.map fun x => .num x) ++
        optField "alive" (n.alive.map fun x => .bool x) ++
        optField "revealed" (n.revealed.map fun l => .arr (l.map fun x => .str x)))

/-- In-memory value tree of a GameState, with the explored coordinates as
a live Set node of key strings. -/
def encode (s : GameState) : JVal :=
  .obj ([("act", .num s.act), ("phase", .str s.phase), ("turn", .num s.turn),
    ("movesRemaining", .num s.movesRemaining),
    ("player", .obj [
      ("position", .obj [("q", .num s.player.position.1), ("r", .num s.player.position.2)]),
      ("sanity", .num s.player.sanity),
      ("inventory", .arr (s.player.inventory.map fun x => .str x)),
      ("journal", .arr (s.player.journal.map encodeJournal)),
      ("flags", .obj (s.player.flags.map fun kv => (kv.1, JVal.bool kv.2)))]),
    ("resources", .obj [("oil", .num s.resources.oil), ("food", .num s.resources.food),
      ("supplies", .num s.resources.supplies)]),
    ("npcs", .obj (s.npcs.map fun kv => (kv.1, encodeNpc kv.2))),
    ("board", .obj [("explored", .set (s.board.explored.map fun c => .str (toKey c.1 c.2))),
      ("tileStates", .obj [])]),
    ("events", .obj [("completed", .arr (s.events.completed.map fun x => .str x)),
      ("active", match s.events.active with | some e => .str e | none => .null)]),
    ("lighthouseLit", .arr (s.lighthouseLit.map fun x => .bool x)),
    ("gameStarted", .bool s.gameStarted), ("gameOver", .bool s.gameOver)] ++
    optField "gameOverReason" (s.gameOverReason.map fun x => .str x))

/-- StateManager.serialize at the value level: the parsed form of the
emitted JSON text is the state tree with every Set tagged. -/
def serializeState (s : GameState) : JVal := tagSets (encode s)

/-- StateManager.deserialize at the value level: _restoreSets applied to
the parsed tree. -/
def deserializeState (j : JVal) : JVal := restoreSets j

end LePhare

namespace LePhare

theorem goodFields_append (l1 l2 : List (String × JVal)) :
    goodFields (l1 ++ l2) = (goodFields l1 && goodFields l2) := by
  induction l1 with
  | nil => simp [goodFields]
  | cons kv rest ih =>
    obtain ⟨k, v⟩ := kv
    simp [goodFields, ih, Bool.and_assoc]

theorem goodList_map {α : Type} (f : α → JVal) (h : ∀ x, good (f x) = true) :
    ∀ l : List α, goodList (l.map f) = true := by
  intro l
  induction l with
  | nil => rfl
  | cons x rest ih => simp [goodList, h x, ih]

theorem goodFields_map {α : Type} (f : α → String × JVal) (h : ∀ x, good (f x).2 = true) :
    ∀ l : List α, goodFields (l.map f) = true := by
  intro l
  induction l with
  | nil => rfl
  | cons x rest ih =>
    rcases hfx : f x with ⟨k, v⟩
    have hv : good v = true := by
      have h2 := h x
      rw [hfx] at h2
      exact h2
    simp [goodFields, hfx, hv, ih]

theorem setFreeList_map {α : Type} (f : α → JVal) (h : ∀ x, setFree (f x) = true) :
    ∀ l : List α, setFreeList (l.map f) = true := by
  intro l
  induction l with
  | nil => rfl
  | cons x rest ih => simp [setFreeList, h x, ih]

theorem lookupField_mem {fs : List (String × JVal)} {k : String} {v : JVal}
    (h : lookupField fs k = some v) : ∃ kv ∈ fs, kv.2 = v := by
  unfold lookupField at h
  cases hf : fs.find? (fun kv => kv.1 == k) with
  | none =>
    rw [hf] at h
    cases h
  | some kv =>
    rw [hf] at h
    exact ⟨kv, List.mem_of_find?_eq_some hf, Option.some_inj.mp h⟩

theorem taggedValues_obj_of_type_none {fs : List (String × JVal)}
    (h : lookupField fs "__type" = none) : taggedValues (.obj fs) = none := by
  unfold taggedValues
  dsimp only
  rw [h]
  rfl

theorem taggedValues_obj_of_values {fs : List (String × JVal)}
    (h : ∀ kv ∈ fs, ∀ st, kv.2 ≠ JVal.str st) : taggedValues (.obj fs) = none := by
  unfold taggedValues
  dsimp only
  cases h1 : lookupField fs "__type" with
  | none => rfl
  | some v =>
    obtain ⟨kv, hkv, hv⟩ := lookupField_mem h1
    cases v with
    | str t => exact absurd hv (h kv hkv t)
    | null => rfl
    | bool b => rfl
    | num n => rfl
    | arr xs => rfl
    | obj g => rfl
    | set xs => rfl

theorem good_encodeJournal (e : JournalEntry) : good (encodeJournal e) = true := rfl

theorem good_encodeNpc (n : Npc) : good (encodeNpc n) = true := by
  obtain ⟨a, t, al, rv⟩ := n
  cases a <;> cases t <;> cases al <;> cases rv <;>
    simp [encodeNpc, optField, good, goodList, goodFields, taggedValues, lookupField,
      strVal, goodList_map (fun x => JVal.str x) (fun x => rfl)]

theorem goodFields_mapSnd {α : Type} (g : α → JVal) (h : ∀ x, good (g x) = true) :
    ∀ l : List (String × α), goodFields (l.map fun kv => (kv.1, g kv.2)) = true := by
  intro l
  induction l with
  | nil => rfl
  | cons x rest ih => simp [goodFields, h x.2, ih]

theorem good_obj_intro {fs : List (String × JVal)}
    (h1 : taggedValues (.obj fs) = none) (h2 : goodFields fs = true) :
    good (.obj fs) = true := by
  simp [good, h1, h2]

theorem goodFields_cons_intro {k : String} {v : JVal} {fs : List (String × JVal)}
    (h1 : good v = true) (h2 : goodFields fs = true) :
    goodFields ((k, v) :: fs) = true := by
  simp [goodFields, h1, h2]

set_option maxHeartbeats 1000000 in
theorem good_encode (s : GameState) : good (encode s) = true := by
  have hflag_tag : taggedValues
      (.obj (s.player.flags.map fun kv => (kv.1, JVal.bool kv.2))) = none :=
    taggedValues_obj_of_values (by
      intro kv hkv st
      obtain ⟨x, hx, hmap⟩ := List.mem_map.mp hkv
      rw [← hmap]
      simp)
  have hnpc_tag : taggedValues
      (.obj (s.npcs.map fun kv => (kv.1, encodeNpc kv.2))) = none :=
    taggedValues_obj_of_values (by
      intro kv hkv st
      obtain ⟨x, hx, hmap⟩ := List.mem_map.mp hkv
      rw [← hmap]
      simp [encodeNpc])
  have hflag_good : goodFields (s.player.flags.map fun kv => (kv.1, JVal.bool kv.2)) = true :=
    goodFields_mapSnd (fun b => JVal.bool b) (fun x => rfl) s.player.flags
  have hnpc_good : goodFields (s.npcs.map fun kv => (kv.1, encodeNpc kv.2)) = true :=
    goodFields_mapSnd encodeNpc good_encodeNpc s.npcs
  have hinv : goodList (s.player.inventory.map fun x => JVal.str x) = true :=
    goodList_map (fun x => JVal.str x) (fun x => rfl) s.player.inventory
  have hjour : goodList (s.player.journal.map encodeJournal) = true :=
    goodList_map encodeJournal good_encodeJournal s.player.journal
  have hcomp : goodList (s.events.completed.map fun x => JVal.str x) = true :=
    goodList_map (fun x => JVal.str x) (fun x => rfl) s.events.completed
  have hlit : goodList (s.lighthouseLit.map fun x => JVal.bool x) = true :=
    goodList_map (fun x => JVal.bool x) (fun x => rfl) s.lighthouseLit
  have hexp : setFreeList (s.board.explored.map fun c => JVal.str (toKey c.1 c.2)) = true :=
    setFreeList_map (fun c => JVal.str (toKey c.1 c.2)) (fun c => rfl) s.board.explored
  have hactive : good (match s.events.active with
      | some e => JVal.str e
      | none => JVal.null) = true := by
    cases s.events.active <;> rfl
  have hplayer : good (.obj [
      ("position", .obj [("q", JVal.num s.player.position.1),
        ("r", JVal.num s.player.position.2)]),
      ("sanity", JVal.num s.player.sanity),
      ("inventory", .arr (s.player.inventory.map fun x => JVal.str x)),
      ("journal", .arr (s.player.journal.map encodeJournal)),
      ("flags", .obj (s.player.flags.map fun kv => (kv.1, JVal.bool kv.2)))]) = true :=
    good_obj_intro rfl (goodFields_cons_intro rfl (goodFields_cons_intro rfl
      (goodFields_cons_intro hinv (goodFields_cons_intro hjour
      (goodFields_cons_intro (good_obj_intro hflag_tag hflag_good) rfl)))))
  have hnpcs : good (.obj (s.npcs.map fun kv => (kv.1, encodeNpc kv.2))) = true :=
    good_obj_intro hnpc_tag hnpc_good
  have hboard : good (.obj [
      ("explored", .set (s.board.explored.map fun c => JVal.str (toKey c.1 c.2))),
      ("tileStates", .obj [])]) = true :=
    good_obj_intro rfl (goodFields_cons_intro hexp (goodFields_cons_intro rfl rfl))
  have hevents : good (.obj [
      ("completed", .arr (s.events.completed.map fun x => JVal.str x)),
      ("active", match s.events.active with
        | some e => JVal.str e
        | none => JVal.null)]) = true :=
    good_obj_intro rfl (goodFields_cons_intro hcomp (goodFields_cons_intro hactive rfl))
  cases hg : s.gameOverReason with
  | none =>
    simp only [encode, hg, Option.map_none', optField, List.append_nil]
    exact good_obj_intro rfl (goodFields_cons_intro rfl (goodFields_cons_intro rfl
      (goodFields_cons_intro rfl (goodFields_cons_intro rfl
      (goodFields_cons_intro hplayer (goodFields_cons_intro rfl
      (goodFields_cons_intro hnpcs (goodFields_cons_intro hboard
      (goodFields_cons_intro hevents (goodFields_cons_intro hlit
      (goodFields_cons_intro rfl (goodFields_cons_intro rfl rfl))))))))))))
  | some r =>
    simp only [encode, hg, Option.map_some', optField, List.cons_append, List.nil_append]
    exact good_obj_intro rfl (goodFields_cons_intro rfl (goodFields_cons_intro rfl
      (goodFields_cons_intro rfl (goodFields_cons_intro rfl
      (goodFields_cons_intro hplayer (goodFields_cons_intro rfl
      (goodFields_cons_intro hnpcs (goodFields_cons_intro hboard
      (goodFields_cons_intro hevents (goodFields_cons_intro hlit
      (goodFields_cons_intro rfl (goodFields_cons_intro rfl
      (goodFields_cons_intro rfl rfl)))))))))))))

end LePhare

namespace LePhare

/-- C4: for every reachable GameState, deserialize of serialize yields a
state tree deep-equal to the original, including the explored-coordinate
Set round-tripped through its tagged form and the nested NPC and flag
mappings. -/
theorem c4_serialize_roundtrip (s : GameState) (_h : Reachable s) :
    deserializeState (serializeState s) = encode s := by
  obtain ⟨fs, hfs⟩ : ∃ fs, encode s = JVal.obj fs := ⟨_, rfl⟩
  have hg := good_encode s
  rw [hfs] at hg
  simp only [good, Bool.and_eq_true] at hg
  show restoreSets (tagSets (encode s)) = encode s
  rw [hfs, tagSets, restoreSets, restoreFields_tagSetsFields fs hg.2]

/-- The round trip evaluated at the initial state. -/
theorem c4_witness : Reachable initialState ∧
    deserializeState (serializeState initialState) = encode initialState :=
  ⟨Reachable.init, c4_serialize_roundtrip initialState Reachable.init⟩

end LePhare
